import Mathlib

/-!
# Sentiment pipeline of `main.go`

A shallow embedding of the batching / fan-out / fan-in pipeline of `src/main.go`:
`processLine`, the batching goroutine of `main`, `worker`, and the reduction and
summary at the end of `main`.

Conventions of the embedding.

* `float64` values are exact rationals (`ℚ`): rounding and overflow are not modelled.
  The one float operation whose IEEE result is not a number of `ℚ`, a division by
  zero, is modelled explicitly by `F64.div`.
* The `int32` fields of `Counter` are read in two ways: as exact integers, and as
  `int32` values that wrap (`addInt32`, the definitions with the suffix `32`).
* `json.Unmarshal` and `model.SentimentAnalysis` belong to external libraries; they
  are parameters `unmarshal` and `score` of the definitions that call them.
* The input is the list of lines that `scanner.Scan` yields; a scanner error is not
  modelled.
* A goroutine blocked in a `select` is resumed by one of its cases; which one is the
  scheduler's choice and is an input of the model (`Select`, `PushEnv`).
* Workers run concurrently. `Pool` interleaves them at the grain of their atomic
  operations on the counter; `runWorkers` runs them one after the other, which
  `runWorkers_eq_interleaved` shows to give the counter and the results of every
  interleaving that completes.
-/

namespace SentimentPipeline

/-! ## Data model -/

/-- The fields of `Review` that the pipeline reads; the other fields of the Go struct
are carried along and never inspected. -/
structure Review where
  Rating : ℚ
  Text : String
deriving DecidableEq

/-- The shared `Counter` struct. The fields are integers. The definitions without a
suffix (`classifyReview`, `Thread.step`, ...) add to them exactly, the reading of the
counters as exact integers; the definitions with the suffix `32` are the same code
with every `atomic.AddInt32` wrapping at 32 bits, as the `int32` fields do. The two
agree as long as fewer than `2 ^ 31` reviews are classified. -/
structure Counter where
  negative : Int
  positive : Int
  total : Int
deriving DecidableEq

/-- The local variables `negatives` and `totalNegativeRating` of one `worker`. -/
structure WorkerVars where
  negatives : Int
  totalNegativeRating : ℚ
deriving DecidableEq

/-- The constant `numWorkers` of `main`. -/
def numWorkers : Nat := 10

/-- The constant `chunkSize` of `main`. -/
def chunkSize : Nat := 100

/-- The capacity of the channel `reviewChunks`. -/
def queueCapacity : Nat := 100

/-! ## `processLine` -/

/-- `processLine`: the review decoded from the line, or the decoder's error. -/
def processLine (unmarshal : String → Except String Review) (line : String) :
    Except String Review :=
  match unmarshal line with
  | .error err => .error err
  | .ok review => .ok review

/-! ## `worker` -/

/-- The body of `for _, review := range chunk` in `worker` (lines 73-82), run for one
review without interruption. -/
def classifyReview (score : String → Nat) (c : Counter) (v : WorkerVars) (review : Review) :
    Counter × WorkerVars :=
  let c1 : Counter := { c with total := c.total + 1 }
  if score review.Text = 0 then
    ({ c1 with negative := c1.negative + 1 },
     { negatives := v.negatives + 1,
       totalNegativeRating := v.totalNegativeRating + review.Rating })
  else
    ({ c1 with positive := c1.positive + 1 }, v)

/-- The whole `range chunk` loop of `worker`. -/
def classifyChunk (score : String → Nat) (c : Counter) (v : WorkerVars) (chunk : List Review) :
    Counter × WorkerVars :=
  chunk.foldl (fun s review => classifyReview score s.1 s.2 review) (c, v)

/-- The case by which the `select` of `worker` resumes. -/
inductive Select where
  /-- `case <-ctx.Done()` -/
  | done
  /-- `case chunk, ok := <-reviewChunks` with `ok = false` -/
  | closed
  /-- `case chunk, ok := <-reviewChunks` with `ok = true` -/
  | recv (chunk : List Review)

/-- How a `worker` left its loop. -/
inductive WorkerExit where
  | cancelled
  | drained
deriving DecidableEq

/-- What one `worker` did: the counter it leaves, its local variables, the values it
sent on `resultsCh`, and how it returned (`none`: it is still waiting in `select`). -/
structure WorkerRun where
  counter : Counter
  vars : WorkerVars
  sent : List ℚ
  exit : Option WorkerExit

/-- The value sent on `resultsCh` at lines 65-69. -/
def closingResult (v : WorkerVars) : ℚ :=
  if v.negatives > 0 then v.totalNegativeRating / (v.negatives : ℚ) else 0

/-- The `for { select { ... } }` loop of `worker`, along the cases its `select` takes. -/
def workerLoop (score : String → Nat) : List Select → Counter → WorkerVars → WorkerRun
  | [], c, v => ⟨c, v, [], none⟩
  | .done :: _, c, v => ⟨c, v, [], some .cancelled⟩
  | .closed :: _, c, v => ⟨c, v, [closingResult v], some .drained⟩
  | .recv chunk :: rest, c, v =>
      workerLoop score rest (classifyChunk score c v chunk).1 (classifyChunk score c v chunk).2

/-- `worker`: the loop entered with `negatives := 0` and `totalNegativeRating := 0.0`. -/
def worker (score : String → Nat) (events : List Select) (c : Counter) : WorkerRun :=
  workerLoop score events c ⟨0, 0⟩

/-! ### Workers interleaved at the grain of the atomic operations -/

/-- One `worker` inside its `range chunk` loops. `inflight = some (neg, review)` when
line 74 (`atomic.AddInt32(&counter.total, 1)`) has run for the current `review`, whose
score is zero exactly when `neg`, and line 78 or 80 has not run yet; `todo` are the
reviews of the chunks the worker has still to range over. -/
structure Thread where
  vars : WorkerVars
  inflight : Option (Bool × Review)
  todo : List Review

/-- One atomic operation of a worker on the shared counter, with the local
statements that follow or precede it. -/
def Thread.step (score : String → Nat) (c : Counter) (t : Thread) : Counter × Thread :=
  match t.inflight, t.todo with
  | some (true, review), _ =>
      ({ c with negative := c.negative + 1 },
       { t with
         vars := { negatives := t.vars.negatives + 1,
                   totalNegativeRating := t.vars.totalNegativeRating + review.Rating },
         inflight := none })
  | some (false, _), _ =>
      ({ c with positive := c.positive + 1 }, { t with inflight := none })
  | none, review :: rest =>
      ({ c with total := c.total + 1 },
       { t with inflight := some (decide (score review.Text = 0), review), todo := rest })
  | none, [] => (c, t)

/-- The shared counter and the workers running on it. -/
structure Pool where
  counter : Counter
  threads : List Thread

/-- The scheduler lets worker `i` perform its next atomic operation. -/
def Pool.step (score : String → Nat) (p : Pool) (i : Nat) : Pool :=
  match p.threads[i]? with
  | none => p
  | some t => ⟨(t.step score p.counter).1, p.threads.set i (t.step score p.counter).2⟩

/-- An interleaving: the workers scheduled one atomic operation at a time. -/
def Pool.run (score : String → Nat) (p : Pool) (schedule : List Nat) : Pool :=
  schedule.foldl (Pool.step score) p

/-- The pool at the start: `var counter Counter`, every worker with zeroed locals and
the reviews it is going to receive. -/
def Pool.init (todos : List (List Review)) : Pool :=
  ⟨⟨0, 0, 0⟩, todos.map fun todo => ⟨⟨0, 0⟩, none, todo⟩⟩

/-- Number of workers between line 74 and line 78 / 80 of the current review. -/
def Pool.inflight (p : Pool) : Nat :=
  p.threads.countP fun t => t.inflight.isSome

/-! ## The batching goroutine of `main` -/

/-- What the batching goroutine meets when it reaches a send on `reviewChunks`:
`received`, how many of the chunks pushed so far the workers take from the queue
before the send or while the goroutine waits on it; `cancelled`, `ctx.Done()` is
closed; `pickSend`, the case a `select` takes when both of its cases are ready.
`main` cancels `ctx` only through the deferred `cancel()`, when it returns, so in a
run of `main` the goroutine meets `cancelled = false` at every send; the field is an
input so that the goroutine can be followed under a cancelled context. -/
structure PushEnv where
  received : Nat
  cancelled : Bool
  pickSend : Bool

/-- The send that follows `pushed` chunks finds no room in the queue and gets none:
of the `pushed` chunks sent on the channel, made with capacity `queueCapacity`, the
workers take only `received`. -/
def PushEnv.full (e : PushEnv) (pushed : Nat) : Bool :=
  decide (queueCapacity ≤ pushed - e.received)

/-- Outcome of a send on `reviewChunks`. -/
inductive Push where
  | sent
  | abandoned
  | blocked
deriving DecidableEq

/-- The `select` of lines 243-248, reached after `pushed` chunks: the send raced
against `ctx.Done()`. -/
def selectPush (e : PushEnv) (pushed : Nat) : Push :=
  match e.full pushed, e.cancelled with
  | false, false => .sent
  | false, true => if e.pickSend then .sent else .abandoned
  | true, true => .abandoned
  | true, false => .blocked

/-- The send of line 252, `reviewChunks <- chunk`, outside any `select`, reached
after `pushed` chunks. -/
def plainPush (e : PushEnv) (pushed : Nat) : Push :=
  if e.full pushed then .blocked else .sent

/-- How the batching goroutine ended: `finished`, it fell off the end of the function;
`cancelled`, it returned from `case <-ctx.Done()`; `blocked`, it never returns. The
deferred `close(reviewChunks)` runs in the first two cases. -/
inductive BatcherExit where
  | finished
  | cancelled
  | blocked
deriving DecidableEq

/-- The chunks pushed on `reviewChunks`, in push order, and how the goroutine ended. -/
structure BatcherRun where
  pushed : List (List Review)
  exit : BatcherExit
deriving DecidableEq

/-- The `for scanner.Scan()` loop of the batching goroutine and the flush after it
(lines 234-253). `chunk` is the variable `chunk`, `pushed` the chunks sent so far;
the `k`-th send (from 0) meets `env k`. -/
def batcherLoop (unmarshal : String → Except String Review) (size : Nat) (env : Nat → PushEnv) :
    List String → List Review → List (List Review) → BatcherRun
  | [], chunk, pushed =>
      if chunk.length > 0 then
        match plainPush (env pushed.length) pushed.length with
        | .sent => ⟨pushed ++ [chunk], .finished⟩
        | _ => ⟨pushed, .blocked⟩
      else ⟨pushed, .finished⟩
  | line :: rest, chunk, pushed =>
      match processLine unmarshal line with
      | .error _ => batcherLoop unmarshal size env rest chunk pushed
      | .ok review =>
          if (chunk ++ [review]).length = size then
            match selectPush (env pushed.length) pushed.length with
            | .sent => batcherLoop unmarshal size env rest [] (pushed ++ [chunk ++ [review]])
            | .abandoned => ⟨pushed, .cancelled⟩
            | .blocked => ⟨pushed, .blocked⟩
          else batcherLoop unmarshal size env rest (chunk ++ [review]) pushed

/-- The batching goroutine, started with `var chunk []Review` and an empty queue. -/
def batcher (unmarshal : String → Except String Review) (size : Nat) (env : Nat → PushEnv)
    (lines : List String) : BatcherRun :=
  batcherLoop unmarshal size env lines [] []

/-- The environment of a run in which `ctx` is never cancelled and every send goes
through: the workers take every chunk that is pushed. -/
def noCancel : Nat → PushEnv := fun k => ⟨k, false, true⟩

/-- The reviews of the lines that `processLine` decodes, in stream order. -/
def parsedReviews (unmarshal : String → Except String Review) (lines : List String) :
    List Review :=
  lines.filterMap fun line =>
    match processLine unmarshal line with
    | .error _ => none
    | .ok review => some review

/-! ## Reduction and summary at the end of `main` -/

/-- The loop `for result := range resultsCh` (lines 264-271): the pair
`(totalNegativeRating, negativeReviewCount)`. -/
def reduce (results : List ℚ) : ℚ × Int :=
  results.foldl
    (fun acc result => if result > 0 then (acc.1 + result, acc.2 + 1) else acc) (0, 0)

/-- A `float64` result: a number, an infinity, or NaN. -/
inductive F64 where
  | real (q : ℚ)
  | posInf
  | negInf
  | nan
deriving DecidableEq

/-- The quotient `float64(a) / float64(b)` of two integers converted to `float64`;
IEEE 754 gives NaN for `0 / 0` and an infinity for `a / 0` with `a ≠ 0`. -/
def F64.div (a b : Int) : F64 :=
  if b = 0 then
    if a = 0 then .nan else if a > 0 then .posInf else .negInf
  else .real ((a : ℚ) / (b : ℚ))

/-- The product `x * 100`. -/
def F64.mul100 : F64 → F64
  | .real q => .real (q * 100)
  | .posInf => .posInf
  | .negInf => .negInf
  | .nan => .nan

/-- What `main` prints after the reduction: `average` is the line
`Average negative reviews`, present only when it is printed; the other four lines are
always printed. Values are those passed to `Printf`, before formatting. -/
structure Summary where
  average : Option ℚ
  negative : Int
  positive : Int
  negativePercentage : F64
  positivePercentage : F64
deriving DecidableEq

/-- Lines 273-284 of `main`. -/
def summarize (results : List ℚ) (counter : Counter) : Summary :=
  let acc := reduce results
  { average := if acc.2 > 0 then some (acc.1 / (acc.2 : ℚ)) else none
    negative := counter.negative
    positive := counter.positive
    negativePercentage := (F64.div counter.negative counter.total).mul100
    positivePercentage := (F64.div counter.positive counter.total).mul100 }

/-! ## A completed run -/

/-- The chunks that worker `w` of `n` receives when the `i`-th chunk pushed goes to
worker `assign i % n`, in the order of the queue. -/
def chunksOf (batches : List (List Review)) (assign : Nat → Nat) (n w : Nat) :
    List (List Review) :=
  (batches.enum.filter fun p => assign p.1 % n = w).map Prod.snd

/-- The cases the `select` of worker `w` takes in a run without cancellation: its
chunks, then the closed queue. -/
def eventsOf (batches : List (List Review)) (assign : Nat → Nat) (n w : Nat) : List Select :=
  (chunksOf batches assign n w).map Select.recv ++ [Select.closed]

/-- The counter and the values on `resultsCh` once the `n` workers have returned. -/
structure WorkersRun where
  counter : Counter
  results : List ℚ

/-- The `n` workers run to completion on `batches`, one after the other. -/
def runWorkers (score : String → Nat) (batches : List (List Review)) (assign : Nat → Nat)
    (n : Nat) : WorkersRun :=
  (List.range n).foldl
    (fun acc w =>
      let r := worker score (eventsOf batches assign n w) acc.counter
      ⟨r.counter, acc.results ++ r.sent⟩)
    ⟨⟨0, 0, 0⟩, []⟩

/-- A run of the pipeline without cancellation: the batching goroutine, `n` workers,
the chunks handed out by `assign`. -/
def pipeline (unmarshal : String → Except String Review) (score : String → Nat)
    (size n : Nat) (assign : Nat → Nat) (lines : List String) : WorkersRun :=
  runWorkers score (batcher unmarshal size noCancel lines).pushed assign n

/-- The summary `main` prints for such a run. -/
def report (unmarshal : String → Except String Review) (score : String → Nat)
    (size n : Nat) (assign : Nat → Nat) (lines : List String) : Summary :=
  let r := pipeline unmarshal score size n assign lines
  summarize r.results r.counter

/-! ## The counter as `int32` -/

/-- The value an `int32` holds for the integer `x`: two's complement wrap-around. -/
def wrapInt32 (x : Int) : Int :=
  (x + 2147483648) % 4294967296 - 2147483648

/-- `atomic.AddInt32(&x, delta)`: the new value of `x`. -/
def addInt32 (x delta : Int) : Int :=
  wrapInt32 (x + delta)

/-- The values the `int32` fields hold for exact counts. -/
def Counter.wrap (c : Counter) : Counter :=
  ⟨wrapInt32 c.negative, wrapInt32 c.positive, wrapInt32 c.total⟩

/-- The body of `for _, review := range chunk` in `worker` (lines 73-82) on `int32`
counter fields. -/
def classifyReview32 (score : String → Nat) (c : Counter) (v : WorkerVars) (review : Review) :
    Counter × WorkerVars :=
  let c1 : Counter := { c with total := addInt32 c.total 1 }
  if score review.Text = 0 then
    ({ c1 with negative := addInt32 c1.negative 1 },
     { negatives := v.negatives + 1,
       totalNegativeRating := v.totalNegativeRating + review.Rating })
  else
    ({ c1 with positive := addInt32 c1.positive 1 }, v)

/-- The whole `range chunk` loop of `worker` on `int32` counter fields. -/
def classifyChunk32 (score : String → Nat) (c : Counter) (v : WorkerVars)
    (chunk : List Review) : Counter × WorkerVars :=
  chunk.foldl (fun s review => classifyReview32 score s.1 s.2 review) (c, v)

/-- The `for { select { ... } }` loop of `worker` on `int32` counter fields. -/
def workerLoop32 (score : String → Nat) : List Select → Counter → WorkerVars → WorkerRun
  | [], c, v => ⟨c, v, [], none⟩
  | .done :: _, c, v => ⟨c, v, [], some .cancelled⟩
  | .closed :: _, c, v => ⟨c, v, [closingResult v], some .drained⟩
  | .recv chunk :: rest, c, v =>
      workerLoop32 score rest (classifyChunk32 score c v chunk).1
        (classifyChunk32 score c v chunk).2

/-- `worker` on `int32` counter fields. -/
def worker32 (score : String → Nat) (events : List Select) (c : Counter) : WorkerRun :=
  workerLoop32 score events c ⟨0, 0⟩

/-- The `n` workers run to completion on `batches`, one after the other, on `int32`
counter fields. -/
def runWorkers32 (score : String → Nat) (batches : List (List Review)) (assign : Nat → Nat)
    (n : Nat) : WorkersRun :=
  (List.range n).foldl
    (fun acc w =>
      let r := worker32 score (eventsOf batches assign n w) acc.counter
      ⟨r.counter, acc.results ++ r.sent⟩)
    ⟨⟨0, 0, 0⟩, []⟩

/-- A run of the pipeline without cancellation on `int32` counter fields. -/
def pipeline32 (unmarshal : String → Except String Review) (score : String → Nat)
    (size n : Nat) (assign : Nat → Nat) (lines : List String) : WorkersRun :=
  runWorkers32 score (batcher unmarshal size noCancel lines).pushed assign n

/-- One atomic operation of a worker on the shared `int32` counter. -/
def Thread.step32 (score : String → Nat) (c : Counter) (t : Thread) : Counter × Thread :=
  match t.inflight, t.todo with
  | some (true, review), _ =>
      ({ c with negative := addInt32 c.negative 1 },
       { t with
         vars := { negatives := t.vars.negatives + 1,
                   totalNegativeRating := t.vars.totalNegativeRating + review.Rating },
         inflight := none })
  | some (false, _), _ =>
      ({ c with positive := addInt32 c.positive 1 }, { t with inflight := none })
  | none, review :: rest =>
      ({ c with total := addInt32 c.total 1 },
       { t with inflight := some (decide (score review.Text = 0), review), todo := rest })
  | none, [] => (c, t)

/-- The scheduler lets worker `i` perform its next atomic operation on the `int32`
counter. -/
def Pool.step32 (score : String → Nat) (p : Pool) (i : Nat) : Pool :=
  match p.threads[i]? with
  | none => p
  | some t => ⟨(t.step32 score p.counter).1, p.threads.set i (t.step32 score p.counter).2⟩

/-- An interleaving of the workers on the `int32` counter. -/
def Pool.run32 (score : String → Nat) (p : Pool) (schedule : List Nat) : Pool :=
  schedule.foldl (Pool.step32 score) p

/-! ## Quantities named in the statements -/

/-- The reviews with score zero, those `worker` counts as negative. -/
def negativeReviews (score : String → Nat) (reviews : List Review) : List Review :=
  reviews.filter fun review => score review.Text = 0

/-- The reviews with a non-zero score. -/
def positiveReviews (score : String → Nat) (reviews : List Review) : List Review :=
  reviews.filter fun review => ¬ score review.Text = 0

/-- Sum of the ratings of `reviews`. -/
def ratingSum (reviews : List Review) : ℚ :=
  (reviews.map Review.Rating).sum

/-- The reviews worker `w` ranges over in a completed run, in order. -/
def reviewsOf (batches : List (List Review)) (assign : Nat → Nat) (n w : Nat) : List Review :=
  (chunksOf batches assign n w).flatten

/-- The value a worker sends on `resultsCh` (lines 65-69) when it finds the queue
closed after ranging over `reviews`. -/
def resultOf (score : String → Nat) (reviews : List Review) : ℚ :=
  if 0 < (negativeReviews score reviews).length then
    ratingSum (negativeReviews score reviews) / ((negativeReviews score reviews).length : ℚ)
  else 0

/-- The worker has ranged over all its reviews. -/
def Thread.finished (t : Thread) : Bool :=
  t.inflight.isNone && t.todo.isEmpty

/-- Every worker has ranged over all its reviews. -/
def Pool.finished (p : Pool) : Bool :=
  p.threads.all Thread.finished

/-- What a worker has still to add to `counter.negative`: one for a review in flight
that scored zero, and one for each review to come that scores zero. -/
def Thread.negativeLeft (score : String → Nat) (t : Thread) : Int :=
  (match t.inflight with
    | some (true, _) => 1
    | _ => 0) + ((negativeReviews score t.todo).length : Int)

/-- What a worker has still to add to `counter.positive`. -/
def Thread.positiveLeft (score : String → Nat) (t : Thread) : Int :=
  (match t.inflight with
    | some (false, _) => 1
    | _ => 0) + ((positiveReviews score t.todo).length : Int)

/-- What a worker has still to add to its `totalNegativeRating`. -/
def Thread.ratingLeft (score : String → Nat) (t : Thread) : ℚ :=
  (match t.inflight with
    | some (true, review) => review.Rating
    | _ => 0) + ratingSum (negativeReviews score t.todo)

/-- The local variables a worker is heading for. -/
def Thread.finalVars (score : String → Nat) (t : Thread) : WorkerVars :=
  ⟨t.vars.negatives + t.negativeLeft score, t.vars.totalNegativeRating + t.ratingLeft score⟩

/-- The balance kept by every atomic operation: `total` is ahead of
`negative + positive` by the number of workers in the middle of a review. -/
def Pool.Balanced (p : Pool) : Prop :=
  p.counter.total = p.counter.negative + p.counter.positive + (p.inflight : Int)

/-- The sums conserved by every atomic operation of every worker: what the counter
holds plus what the workers have still to add to it, and the locals each worker is
heading for. -/
structure Pool.Conserved (score : String → Nat) (p q : Pool) : Prop where
  total : q.counter.total + (q.threads.map fun t => (t.todo.length : Int)).sum =
    p.counter.total + (p.threads.map fun t => (t.todo.length : Int)).sum
  negative : q.counter.negative + (q.threads.map (Thread.negativeLeft score)).sum =
    p.counter.negative + (p.threads.map (Thread.negativeLeft score)).sum
  positive : q.counter.positive + (q.threads.map (Thread.positiveLeft score)).sum =
    p.counter.positive + (p.threads.map (Thread.positiveLeft score)).sum
  vars : q.threads.map (Thread.finalVars score) = p.threads.map (Thread.finalVars score)

/-! ## Sample inputs -/

/-- A line without a `rating` field, `{"text": "bad"}`: `json.Unmarshal` leaves
`Rating` at its zero value. -/
def lineBad0 : String := "\x7b\"text\": \"bad\"\x7d"

/-- The line `{"rating": 1.0, "text": "bad"}`. -/
def lineBad1 : String := "\x7b\"rating\": 1.0, \"text\": \"bad\"\x7d"

/-- The line `{"rating": 2.0, "text": "bad"}`. -/
def lineBad2 : String := "\x7b\"rating\": 2.0, \"text\": \"bad\"\x7d"

/-- The line `{"rating": 3.0, "text": "good"}`. -/
def lineGood3 : String := "\x7b\"rating\": 3.0, \"text\": \"good\"\x7d"

/-- The line `{"rating": 4.0, "text": "good"}`. -/
def lineGood4 : String := "\x7b\"rating\": 4.0, \"text\": \"good\"\x7d"

/-- The line `{"rating": 5.0, "text": "good"}`. -/
def lineGood5 : String := "\x7b\"rating\": 5.0, \"text\": \"good\"\x7d"

/-- `json.Unmarshal` into a `Review` on the six lines above; every other line is
taken as malformed, as are the lines `oops` and the empty line used below. -/
def sampleUnmarshal (line : String) : Except String Review :=
  if line = lineBad0 then .ok ⟨0, "bad"⟩
  else if line = lineBad1 then .ok ⟨1, "bad"⟩
  else if line = lineBad2 then .ok ⟨2, "bad"⟩
  else if line = lineGood3 then .ok ⟨3, "good"⟩
  else if line = lineGood4 then .ok ⟨4, "good"⟩
  else if line = lineGood5 then .ok ⟨5, "good"⟩
  else .error "invalid character"

/-- An environment for the sends under a cancelled context: no worker takes a chunk
from the queue, and `ctx` is cancelled once `queueCapacity` chunks have been pushed. -/
def stalledEnv : Nat → PushEnv := fun k => ⟨0, decide (queueCapacity ≤ k), true⟩

/-- A classifier that scores the text `bad` with 0 and every other text with 1. -/
def sampleScore (text : String) : Nat :=
  if text = "bad" then 0 else 1

/-! # Properties -/

/-! ## Interleaved workers keep the counter balanced -/

theorem countP_set_add {α : Type} (q : α → Bool) :
    ∀ (l : List α) (i : Nat) (a b : α), l[i]? = some a →
      (l.set i b).countP q + (if q a then 1 else 0) = l.countP q + (if q b then 1 else 0)
  | [], i, a, b, h => by simp at h
  | x :: l, 0, a, b, h => by
      simp at h
      subst h
      simp [List.countP_cons]
      omega
  | x :: l, i + 1, a, b, h => by
      simp at h
      have ih := countP_set_add q l i a b h
      simp [List.countP_cons]
      omega

theorem Pool.balanced_init (todos : List (List Review)) : (Pool.init todos).Balanced := by
  simp [Pool.Balanced, Pool.init, Pool.inflight, List.countP_eq_zero.2]

theorem Pool.balanced_step (score : String → Nat) (p : Pool) (i : Nat) (h : p.Balanced) :
    (Pool.step score p i).Balanced := by
  unfold Pool.step
  cases ht : p.threads[i]? with
  | none => simpa using h
  | some t =>
    obtain ⟨vars, inflight, todo⟩ := t
    have hc := fun b => countP_set_add (fun t : Thread => t.inflight.isSome) p.threads i _ b ht
    simp only [Pool.Balanced, Pool.inflight] at h ⊢
    rcases inflight with _ | ⟨neg, review⟩
    · cases todo with
      | nil =>
        have := hc ⟨vars, none, []⟩
        simp [Thread.step] at this ⊢
        omega
      | cons review rest =>
        have := hc ⟨vars, some (decide (score review.Text = 0), review), rest⟩
        simp [Thread.step] at this ⊢
        omega
    · cases neg with
      | true =>
        have := hc ⟨⟨vars.negatives + 1, vars.totalNegativeRating + review.Rating⟩, none, todo⟩
        simp [Thread.step] at this ⊢
        omega
      | false =>
        have := hc ⟨vars, none, todo⟩
        simp [Thread.step] at this ⊢
        omega

theorem Pool.balanced_run (score : String → Nat) (schedule : List Nat) :
    ∀ p : Pool, p.Balanced → (Pool.run score p schedule).Balanced := by
  induction schedule with
  | nil => intro p h; simpa [Pool.run] using h
  | cons i rest ih =>
    intro p h
    simpa [Pool.run] using ih _ (Pool.balanced_step score p i h)

/-- Two atomic operations of a worker that starts a review are the loop body
`classifyReview` for that review. -/
theorem Thread.step_step (score : String → Nat) (c : Counter) (v : WorkerVars)
    (review : Review) (rest : List Review) :
    let s1 := Thread.step score c ⟨v, none, review :: rest⟩
    let s2 := Thread.step score s1.1 s1.2
    s2 = ((classifyReview score c v review).1, ⟨(classifyReview score c v review).2, none, rest⟩) := by
  by_cases h : score review.Text = 0 <;> simp [Thread.step, classifyReview, h]

/-- C1. Start the workers on any distribution `todos` of reviews and schedule their
atomic counter operations in any order. At every instant `total` equals
`negative + positive` plus the number of workers that have bumped `total` for their
current review and not yet `negative` or `positive`; so whenever every review that was
started has been fully processed, `total = negative + positive`. Processing one review
adds one to `total` and one to exactly one of `negative` and `positive`. -/
theorem counter_total_eq_negative_add_positive (score : String → Nat)
    (todos : List (List Review)) (schedule : List Nat) :
    let p := Pool.run score (Pool.init todos) schedule
    (p.counter.total = p.counter.negative + p.counter.positive + (p.inflight : Int)) ∧
    (p.inflight = 0 → p.counter.total = p.counter.negative + p.counter.positive) ∧
    (∀ (c : Counter) (v : WorkerVars) (review : Review),
      let c1 := (classifyReview score c v review).1
      c1.total = c.total + 1 ∧
      ((c1.negative = c.negative + 1 ∧ c1.positive = c.positive) ∨
       (c1.negative = c.negative ∧ c1.positive = c.positive + 1))) := by
  intro p
  have h : p.Balanced := Pool.balanced_run score schedule _ (Pool.balanced_init todos)
  refine ⟨h, ?_, ?_⟩
  · intro h0
    have h1 : p.counter.total = p.counter.negative + p.counter.positive + (p.inflight : Int) := h
    rw [h0] at h1
    simpa using h1
  · intro c v review
    by_cases hs : score review.Text = 0 <;> simp [classifyReview, hs]

/-- A run of C1: two workers, three reviews, one schedule that completes every review;
the counter ends at 1 negative, 2 positive, 3 in total. -/
theorem counter_total_eq_negative_add_positive_witness :
    (Pool.run sampleScore (Pool.init [[⟨1, "bad"⟩, ⟨5, "good"⟩], [⟨4, "fine"⟩]])
        [0, 1, 0, 0, 1, 0]).inflight = 0 ∧
    (Pool.run sampleScore (Pool.init [[⟨1, "bad"⟩, ⟨5, "good"⟩], [⟨4, "fine"⟩]])
        [0, 1, 0, 0, 1, 0]).counter = ⟨1, 2, 3⟩ ∧
    (Pool.run sampleScore (Pool.init [[⟨1, "bad"⟩, ⟨5, "good"⟩], [⟨4, "fine"⟩]])
        [0, 1, 0, 0, 1, 0]).counter.total =
      (Pool.run sampleScore (Pool.init [[⟨1, "bad"⟩, ⟨5, "good"⟩], [⟨4, "fine"⟩]])
        [0, 1, 0, 0, 1, 0]).counter.negative +
      (Pool.run sampleScore (Pool.init [[⟨1, "bad"⟩, ⟨5, "good"⟩], [⟨4, "fine"⟩]])
        [0, 1, 0, 0, 1, 0]).counter.positive := by
  have h0 : (Pool.run sampleScore (Pool.init [[⟨1, "bad"⟩, ⟨5, "good"⟩], [⟨4, "fine"⟩]])
        [0, 1, 0, 0, 1, 0]).inflight = 0 := by
    simp [Pool.run, Pool.init, Pool.step, Thread.step, Pool.inflight, sampleScore]
  refine ⟨h0, ?_, ?_⟩
  · simp [Pool.run, Pool.init, Pool.step, Thread.step, sampleScore]
  · exact (counter_total_eq_negative_add_positive sampleScore
      [[⟨1, "bad"⟩, ⟨5, "good"⟩], [⟨4, "fine"⟩]] [0, 1, 0, 0, 1, 0]).2.1 h0

/-! ## The counter of a finished pool does not depend on the interleaving -/

theorem sum_map_set_add {α : Type} (f : α → Int) :
    ∀ (l : List α) (i : Nat) (a b : α), l[i]? = some a →
      ((l.set i b).map f).sum + f a = (l.map f).sum + f b
  | [], i, a, b, h => by simp at h
  | x :: l, 0, a, b, h => by
      simp at h
      subst h
      simp
      ring
  | x :: l, i + 1, a, b, h => by
      simp at h
      have ih := sum_map_set_add f l i a b h
      simp only [List.set_cons_succ, List.map_cons, List.sum_cons]
      linarith

theorem map_set_of_eq {α β : Type} (f : α → β) :
    ∀ (l : List α) (i : Nat) (a b : α), l[i]? = some a → f b = f a →
      (l.set i b).map f = l.map f
  | [], i, a, b, h, _ => by simp at h
  | x :: l, 0, a, b, h, hf => by
      simp at h
      subst h
      simp [hf]
  | x :: l, i + 1, a, b, h, hf => by
      simp at h
      simp [map_set_of_eq f l i a b h hf]

/-- What one atomic operation moves from "still to add" to the counter and to the
worker's locals. -/
theorem Thread.step_conserves (score : String → Nat) (c : Counter) (t : Thread) :
    (t.step score c).1.total + ((t.step score c).2.todo.length : Int) =
      c.total + (t.todo.length : Int) ∧
    (t.step score c).1.negative + (t.step score c).2.negativeLeft score =
      c.negative + t.negativeLeft score ∧
    (t.step score c).1.positive + (t.step score c).2.positiveLeft score =
      c.positive + t.positiveLeft score ∧
    (t.step score c).2.finalVars score = t.finalVars score := by
  obtain ⟨vars, inflight, todo⟩ := t
  rcases inflight with _ | ⟨neg, review⟩
  · cases todo with
    | nil => simp [Thread.step]
    | cons review rest =>
      by_cases hs : score review.Text = 0
      · refine ⟨?_, ?_, ?_, ?_⟩ <;>
          simp [Thread.step, Thread.negativeLeft, Thread.positiveLeft, Thread.finalVars,
            Thread.ratingLeft, negativeReviews, positiveReviews, ratingSum, hs] <;>
          ring1
      · refine ⟨?_, ?_, ?_, ?_⟩ <;>
          simp [Thread.step, Thread.negativeLeft, Thread.positiveLeft, Thread.finalVars,
            Thread.ratingLeft, negativeReviews, positiveReviews, ratingSum, hs] <;>
          ring1
  · cases neg with
    | true =>
      refine ⟨?_, ?_, ?_, ?_⟩ <;>
        simp [Thread.step, Thread.negativeLeft, Thread.positiveLeft, Thread.finalVars,
          Thread.ratingLeft] <;>
        first | ring1 | (constructor <;> ring1)
    | false =>
      refine ⟨?_, ?_, ?_, ?_⟩ <;>
        simp [Thread.step, Thread.negativeLeft, Thread.positiveLeft, Thread.finalVars,
          Thread.ratingLeft]
      ring1

theorem Pool.conserved_step (score : String → Nat) (p : Pool) (i : Nat) :
    Pool.Conserved score p (Pool.step score p i) := by
  unfold Pool.step
  cases ht : p.threads[i]? with
  | none => exact ⟨rfl, rfl, rfl, rfl⟩
  | some t =>
    obtain ⟨h1, h2, h3, h4⟩ := Thread.step_conserves score p.counter t
    have s1 := sum_map_set_add (fun t : Thread => (t.todo.length : Int)) p.threads i t
      (t.step score p.counter).2 ht
    have s2 := sum_map_set_add (Thread.negativeLeft score) p.threads i t
      (t.step score p.counter).2 ht
    have s3 := sum_map_set_add (Thread.positiveLeft score) p.threads i t
      (t.step score p.counter).2 ht
    refine ⟨?_, ?_, ?_, ?_⟩
    · simp only at s1 ⊢; linarith
    · simp only at s2 ⊢; linarith
    · simp only at s3 ⊢; linarith
    · exact map_set_of_eq (Thread.finalVars score) p.threads i t _ ht h4

theorem Pool.conserved_run (score : String → Nat) (schedule : List Nat) :
    ∀ p : Pool, Pool.Conserved score p (Pool.run score p schedule) := by
  induction schedule with
  | nil => intro p; exact ⟨rfl, rfl, rfl, rfl⟩
  | cons i rest ih =>
    intro p
    have h1 := Pool.conserved_step score p i
    have h2 := ih (Pool.step score p i)
    have e : Pool.run score p (i :: rest) = Pool.run score (Pool.step score p i) rest := rfl
    rw [e]
    exact ⟨h2.total.trans h1.total, h2.negative.trans h1.negative,
      h2.positive.trans h1.positive, h2.vars.trans h1.vars⟩

theorem sum_left_of_finished (f : Thread → Int) (hf : ∀ t, t.finished = true → f t = 0) :
    ∀ l : List Thread, l.all Thread.finished = true → (l.map f).sum = 0 := by
  intro l
  induction l with
  | nil => simp
  | cons t l ih =>
    intro h
    simp only [List.all_cons, Bool.and_eq_true] at h
    simp [hf t h.1, ih h.2]

theorem Thread.finished_spec (t : Thread) (h : t.finished = true) :
    t.inflight = none ∧ t.todo = [] := by
  obtain ⟨vars, inflight, todo⟩ := t
  cases inflight <;> cases todo <;> simp_all [Thread.finished]

theorem Pool.init_sums (score : String → Nat) (todos : List (List Review)) :
    ((Pool.init todos).threads.map fun t => (t.todo.length : Int)).sum = todos.flatten.length ∧
    ((Pool.init todos).threads.map (Thread.negativeLeft score)).sum =
      (negativeReviews score todos.flatten).length ∧
    ((Pool.init todos).threads.map (Thread.positiveLeft score)).sum =
      (positiveReviews score todos.flatten).length ∧
    (Pool.init todos).threads.map (Thread.finalVars score) =
      todos.map fun todo =>
        ⟨((negativeReviews score todo).length : Int), ratingSum (negativeReviews score todo)⟩ := by
  induction todos with
  | nil => simp [Pool.init, negativeReviews, positiveReviews]
  | cons todo todos ih =>
    obtain ⟨h1, h2, h3, h4⟩ := ih
    simp only [Pool.init, List.map_map, List.map_cons, List.sum_cons, List.flatten_cons] at *
    refine ⟨?_, ?_, ?_, ?_⟩
    · rw [h1]; simp
    · rw [h2]; simp [Thread.negativeLeft, negativeReviews]
    · rw [h3]; simp [Thread.positiveLeft, positiveReviews]
    · rw [h4]; simp [Thread.finalVars, Thread.negativeLeft, Thread.ratingLeft]

/-- Whatever the interleaving, once every worker has ranged over all its reviews the
counter holds the number of negative, of positive and of all reviews, and every
worker's locals hold the number and the rating sum of its own negative reviews. -/
theorem Pool.run_finished (score : String → Nat) (todos : List (List Review))
    (schedule : List Nat)
    (h : (Pool.run score (Pool.init todos) schedule).finished = true) :
    (Pool.run score (Pool.init todos) schedule).counter =
      ⟨(negativeReviews score todos.flatten).length,
       (positiveReviews score todos.flatten).length,
       todos.flatten.length⟩ ∧
    (Pool.run score (Pool.init todos) schedule).threads.map Thread.vars =
      todos.map fun todo =>
        ⟨((negativeReviews score todo).length : Int), ratingSum (negativeReviews score todo)⟩ := by
  have hc := Pool.conserved_run score schedule (Pool.init todos)
  obtain ⟨i1, i2, i3, i4⟩ := Pool.init_sums score todos
  generalize Pool.run score (Pool.init todos) schedule = q at h hc
  obtain ⟨h1, h2, h3, h4⟩ := hc
  have hall : q.threads.all Thread.finished = true := h
  rw [sum_left_of_finished _ (fun t ht => by simp [(Thread.finished_spec t ht).2]) _ hall,
    i1] at h1
  rw [sum_left_of_finished _
    (fun t ht => by
      simp [Thread.negativeLeft, (Thread.finished_spec t ht).1, (Thread.finished_spec t ht).2,
        negativeReviews]) _ hall, i2] at h2
  rw [sum_left_of_finished _
    (fun t ht => by
      simp [Thread.positiveLeft, (Thread.finished_spec t ht).1, (Thread.finished_spec t ht).2,
        positiveReviews]) _ hall, i3] at h3
  have hv : q.threads.map (Thread.finalVars score) = q.threads.map Thread.vars := by
    apply List.map_congr_left
    intro t ht
    have hfin : t.finished = true := (List.all_eq_true.1 hall) t ht
    obtain ⟨vars, inflight, todo⟩ := t
    obtain ⟨e1, e2⟩ := Thread.finished_spec _ hfin
    simp only at e1 e2
    subst e1 e2
    simp [Thread.finalVars, Thread.negativeLeft, Thread.ratingLeft, negativeReviews, ratingSum]
  have c0 : (Pool.init todos).counter = ⟨0, 0, 0⟩ := rfl
  rw [c0] at h1 h2 h3
  simp only [add_zero, zero_add] at h1 h2 h3
  refine ⟨?_, ?_⟩
  · calc q.counter = ⟨q.counter.negative, q.counter.positive, q.counter.total⟩ := rfl
      _ = _ := by rw [h1, h2, h3]
  · rw [← hv, h4, i4]

/-! ## One worker -/

theorem classifyChunk_nil (score : String → Nat) (c : Counter) (v : WorkerVars) :
    classifyChunk score c v [] = (c, v) := rfl

theorem classifyChunk_cons (score : String → Nat) (c : Counter) (v : WorkerVars)
    (review : Review) (chunk : List Review) :
    classifyChunk score c v (review :: chunk) =
      classifyChunk score (classifyReview score c v review).1
        (classifyReview score c v review).2 chunk := rfl

theorem classifyChunk_append (score : String → Nat) (c : Counter) (v : WorkerVars)
    (xs ys : List Review) :
    classifyChunk score c v (xs ++ ys) =
      classifyChunk score (classifyChunk score c v xs).1 (classifyChunk score c v xs).2 ys := by
  simp [classifyChunk, List.foldl_append]

/-- The effect of a `range chunk` loop in closed form. -/
theorem classifyChunk_eq (score : String → Nat) (chunk : List Review) :
    ∀ (c : Counter) (v : WorkerVars),
      classifyChunk score c v chunk =
        (⟨c.negative + (negativeReviews score chunk).length,
          c.positive + (positiveReviews score chunk).length,
          c.total + chunk.length⟩,
         ⟨v.negatives + (negativeReviews score chunk).length,
          v.totalNegativeRating + ratingSum (negativeReviews score chunk)⟩) := by
  induction chunk with
  | nil => intro c v; simp [classifyChunk, negativeReviews, positiveReviews, ratingSum]
  | cons review chunk ih =>
    intro c v
    rw [classifyChunk_cons, ih]
    by_cases hs : score review.Text = 0
    · simp [classifyReview, negativeReviews, positiveReviews, ratingSum, hs]
      refine ⟨⟨?_, ?_⟩, ?_, ?_⟩ <;> ring
    · simp [classifyReview, negativeReviews, positiveReviews, ratingSum, hs]
      refine ⟨?_, ?_⟩ <;> ring

theorem workerLoop_recv (score : String → Nat) (chunks : List (List Review)) (tail : List Select) :
    ∀ (c : Counter) (v : WorkerVars),
      workerLoop score (chunks.map Select.recv ++ tail) c v =
        workerLoop score tail (classifyChunk score c v chunks.flatten).1
          (classifyChunk score c v chunks.flatten).2 := by
  induction chunks with
  | nil => intro c v; simp [classifyChunk]
  | cons chunk chunks ih =>
    intro c v
    rw [List.map_cons, List.cons_append, List.flatten_cons, classifyChunk_append, workerLoop]
    exact ih _ _

/-- The value a worker sends when it finds the queue closed, from its reviews. -/
theorem worker_drained (score : String → Nat) (chunks : List (List Review)) (tail : List Select)
    (c : Counter) :
    worker score (chunks.map Select.recv ++ Select.closed :: tail) c =
      ⟨⟨c.negative + (negativeReviews score chunks.flatten).length,
        c.positive + (positiveReviews score chunks.flatten).length,
        c.total + chunks.flatten.length⟩,
       ⟨((negativeReviews score chunks.flatten).length : Int),
        ratingSum (negativeReviews score chunks.flatten)⟩,
       [if 0 < (negativeReviews score chunks.flatten).length then
          ratingSum (negativeReviews score chunks.flatten) /
            ((negativeReviews score chunks.flatten).length : ℚ)
        else 0],
       some .drained⟩ := by
  simp [worker, workerLoop_recv, classifyChunk_eq, workerLoop, closingResult]

/-- A worker that takes `case <-ctx.Done()` sends nothing. -/
theorem worker_cancelled (score : String → Nat) (chunks : List (List Review)) (tail : List Select)
    (c : Counter) :
    worker score (chunks.map Select.recv ++ Select.done :: tail) c =
      ⟨⟨c.negative + (negativeReviews score chunks.flatten).length,
        c.positive + (positiveReviews score chunks.flatten).length,
        c.total + chunks.flatten.length⟩,
       ⟨((negativeReviews score chunks.flatten).length : Int),
        ratingSum (negativeReviews score chunks.flatten)⟩,
       [], some .cancelled⟩ := by
  simp [worker, workerLoop_recv, classifyChunk_eq, workerLoop, closingResult]

/-- A worker whose `select` has only received chunks so far has sent nothing. -/
theorem worker_waiting (score : String → Nat) (chunks : List (List Review)) (c : Counter) :
    (worker score (chunks.map Select.recv) c).sent = [] ∧
    (worker score (chunks.map Select.recv) c).exit = none := by
  have h := workerLoop_recv score chunks [] c ⟨0, 0⟩
  simp only [List.append_nil] at h
  simp [worker, h, workerLoop]

/-! ## The reduction -/

theorem reduce_foldl_acc (results : List ℚ) :
    ∀ (s : ℚ) (k : Int),
      results.foldl
          (fun acc result => if result > 0 then (acc.1 + result, acc.2 + 1) else acc) (s, k) =
        (s + (reduce results).1, k + (reduce results).2) := by
  induction results with
  | nil => intro s k; simp [reduce]
  | cons x xs ih =>
    intro s k
    by_cases hx : x > 0
    · simp only [reduce, List.foldl_cons, hx, if_true]
      rw [ih, ih (0 + x) (0 + 1)]
      simp only [reduce]
      refine Prod.ext ?_ ?_ <;> simp <;> ring
    · simp only [reduce, List.foldl_cons, hx, if_false]
      rw [ih]
      simp [reduce]

/-- One more pass of the loop `for result := range resultsCh`. -/
theorem reduce_cons (x : ℚ) (xs : List ℚ) :
    reduce (x :: xs) =
      if x > 0 then ((reduce xs).1 + x, (reduce xs).2 + 1) else reduce xs := by
  by_cases hx : x > 0
  · have h := reduce_foldl_acc xs (0 + x) (0 + 1)
    simp only [reduce, List.foldl_cons, hx, if_true] at h ⊢
    rw [h]
    refine Prod.ext ?_ ?_ <;> simp <;> ring
  · simp [reduce, hx]

/-- The reduction keeps the positive results: it returns their sum and their number. -/
theorem reduce_eq (results : List ℚ) :
    reduce results =
      ((results.filter fun x => 0 < x).sum, ((results.filter fun x => 0 < x).length : Int)) := by
  induction results with
  | nil => simp [reduce]
  | cons x xs ih =>
    rw [reduce_cons, ih]
    by_cases hx : 0 < x
    · simp [hx, List.filter_cons]
      ring
    · simp [hx, List.filter_cons]

/-- The order in which the results arrive on `resultsCh` does not matter. -/
theorem reduce_perm {xs ys : List ℚ} (h : xs.Perm ys) : reduce xs = reduce ys := by
  rw [reduce_eq, reduce_eq, (h.filter _).sum_eq, (h.filter _).length_eq]

/-! ## What a worker sends, and what the reduction keeps of it -/

theorem workerLoop_sent (score : String → Nat) (events : List Select) :
    ∀ (c : Counter) (v : WorkerVars),
      ((workerLoop score events c v).exit = some .drained →
        ∃ x, (workerLoop score events c v).sent = [x]) ∧
      ((workerLoop score events c v).exit ≠ some .drained →
        (workerLoop score events c v).sent = []) := by
  induction events with
  | nil => intro c v; simp [workerLoop]
  | cons e rest ih =>
    intro c v
    cases e with
    | done => simp [workerLoop]
    | closed => simp [workerLoop]
    | recv chunk => simpa [workerLoop] using ih _ _

/-- C5, as the code has it. A worker that observes the cancellation signal returns
without sending anything on `resultsCh`, whatever it has accumulated; a worker that
finds the queue closed sends exactly one value. So along every sequence of cases its
`select` takes, a worker sends one result when it exits on the closed queue and none
when it exits by cancellation or has not exited. -/
theorem worker_sends_iff_drained (score : String → Nat) (chunks : List (List Review))
    (tail events : List Select) (c : Counter) :
    ((worker score (chunks.map Select.recv ++ Select.done :: tail) c).exit = some .cancelled ∧
      (worker score (chunks.map Select.recv ++ Select.done :: tail) c).sent = []) ∧
    ((worker score (chunks.map Select.recv ++ Select.closed :: tail) c).exit = some .drained ∧
      (worker score (chunks.map Select.recv ++ Select.closed :: tail) c).sent.length = 1) ∧
    ((worker score events c).exit = some .drained → (worker score events c).sent.length = 1) ∧
    ((worker score events c).exit ≠ some .drained → (worker score events c).sent.length = 0) := by
  refine ⟨?_, ?_, ?_, ?_⟩
  · simp [worker_cancelled]
  · simp [worker_drained]
  · intro h
    obtain ⟨x, hx⟩ := (workerLoop_sent score events c ⟨0, 0⟩).1 h
    simp [worker, hx]
  · intro h
    have hx := (workerLoop_sent score events c ⟨0, 0⟩).2 h
    simp [worker, hx]

/-- An instance of C5 as the code has it: a worker that classified one negative review
and is then cancelled, and the same worker finding the queue closed instead. -/
theorem worker_sends_iff_drained_witness :
    (worker sampleScore [Select.recv [⟨1, "bad"⟩], Select.done] ⟨0, 0, 0⟩).sent.length = 0 ∧
    (worker sampleScore [Select.recv [⟨1, "bad"⟩], Select.closed] ⟨0, 0, 0⟩).sent.length = 1 := by
  have h := worker_sends_iff_drained sampleScore [[⟨1, "bad"⟩]] [] [] ⟨0, 0, 0⟩
  exact ⟨by simpa using congrArg List.length h.1.2, by simpa using h.2.1.2⟩

/-- C5 fails as stated: a worker holding a non-empty aggregate (one negative review,
rating sum 1) observes the cancellation signal and returns having sent no result. -/
theorem worker_cancelled_sends_nothing :
    (worker sampleScore [Select.recv [⟨1, "bad"⟩], Select.done] ⟨0, 0, 0⟩).vars = ⟨1, 1⟩ ∧
    (worker sampleScore [Select.recv [⟨1, "bad"⟩], Select.done] ⟨0, 0, 0⟩).exit =
      some .cancelled ∧
    ¬ (worker sampleScore [Select.recv [⟨1, "bad"⟩], Select.done] ⟨0, 0, 0⟩).sent.length = 1 := by
  simp [worker, workerLoop, classifyChunk, classifyReview, sampleScore]

/-! ## The batching goroutine -/

theorem noCancel_spec : ∀ k, (noCancel k).full k = false ∧ (noCancel k).cancelled = false := by
  intro k
  simp [noCancel, PushEnv.full, queueCapacity]

theorem parsedReviews_nil (unmarshal : String → Except String Review) :
    parsedReviews unmarshal [] = [] := rfl

theorem parsedReviews_cons_error (unmarshal : String → Except String Review) (line : String)
    (rest : List String) (err : String) (h : processLine unmarshal line = .error err) :
    parsedReviews unmarshal (line :: rest) = parsedReviews unmarshal rest := by
  simp [parsedReviews, List.filterMap_cons, h]

theorem parsedReviews_cons_ok (unmarshal : String → Except String Review) (line : String)
    (rest : List String) (review : Review) (h : processLine unmarshal line = .ok review) :
    parsedReviews unmarshal (line :: rest) = review :: parsedReviews unmarshal rest := by
  simp [parsedReviews, List.filterMap_cons, h]

/-- The loop invariant of the batching goroutine in a run where every send goes
through: what is pushed from here on is the consecutive chunking of the pending
`chunk` followed by the reviews still to come. -/
theorem batcherLoop_spec (unmarshal : String → Except String Review) (size : Nat)
    (env : Nat → PushEnv) (henv : ∀ k, (env k).full k = false ∧ (env k).cancelled = false)
    (lines : List String) :
    ∀ (chunk : List Review) (pushed : List (List Review)), chunk.length < size →
      ∃ B : List (List Review),
        batcherLoop unmarshal size env lines chunk pushed = ⟨pushed ++ B, .finished⟩ ∧
        B.flatten = chunk ++ parsedReviews unmarshal lines ∧
        (∀ b ∈ B, 1 ≤ b.length ∧ b.length ≤ size) ∧
        (∀ b ∈ B.dropLast, b.length = size) := by
  induction lines with
  | nil =>
    intro chunk pushed hlt
    by_cases hc : chunk.length > 0
    · refine ⟨[chunk], ?_, ?_, ?_, ?_⟩
      · simp [batcherLoop, hc, plainPush, (henv pushed.length).1]
      · simp [parsedReviews]
      · intro b hb
        simp at hb
        subst hb
        omega
      · simp
    · refine ⟨[], ?_, ?_, ?_, ?_⟩
      · simp [batcherLoop, hc]
      · have : chunk = [] := List.length_eq_zero.1 (by omega)
        simp [parsedReviews, this]
      · simp
      · simp
  | cons line rest ih =>
    intro chunk pushed hlt
    cases hp : processLine unmarshal line with
    | error err =>
      obtain ⟨B, h1, h2, h3, h4⟩ := ih chunk pushed hlt
      refine ⟨B, ?_, ?_, h3, h4⟩
      · simp only [batcherLoop, hp]
        exact h1
      · rw [parsedReviews_cons_error unmarshal line rest err hp]
        exact h2
    | ok review =>
      by_cases hs : (chunk ++ [review]).length = size
      · obtain ⟨B, h1, h2, h3, h4⟩ :=
          ih [] (pushed ++ [chunk ++ [review]]) (by simp at hs ⊢; omega)
        refine ⟨(chunk ++ [review]) :: B, ?_, ?_, ?_, ?_⟩
        · simp only [batcherLoop, hp, hs, if_true, selectPush, (henv pushed.length).1,
            (henv pushed.length).2]
          rw [h1]
          simp
        · rw [parsedReviews_cons_ok unmarshal line rest review hp]
          simp [h2]
        · intro b hb
          rcases List.mem_cons.1 hb with hb | hb
          · subst hb
            simp at hs ⊢
            omega
          · exact h3 b hb
        · intro b hb
          cases B with
          | nil => simp at hb
          | cons b0 B0 =>
            rw [List.dropLast_cons₂] at hb
            rcases List.mem_cons.1 hb with hb | hb
            · subst hb; exact hs
            · exact h4 b hb
      · obtain ⟨B, h1, h2, h3, h4⟩ :=
          ih (chunk ++ [review]) pushed (by simp at hs ⊢; omega)
        refine ⟨B, ?_, ?_, h3, h4⟩
        · simp only [batcherLoop, hp, hs, if_false]
          exact h1
        · rw [parsedReviews_cons_ok unmarshal line rest review hp]
          simp [h2]

theorem batcher_noCancel_flatten (unmarshal : String → Except String Review) (size : Nat)
    (lines : List String) (hsize : 1 ≤ size) :
    (batcher unmarshal size noCancel lines).pushed.flatten = parsedReviews unmarshal lines := by
  obtain ⟨B, h1, h2, _, _⟩ :=
    batcherLoop_spec unmarshal size noCancel noCancel_spec lines [] []
      (by simpa using hsize)
  simp only [batcher, h1, List.nil_append]
  simpa using h2

theorem batcherLoop_no_reviews (unmarshal : String → Except String Review) (size : Nat)
    (env : Nat → PushEnv) (lines : List String) :
    ∀ pushed : List (List Review), parsedReviews unmarshal lines = [] →
      batcherLoop unmarshal size env lines [] pushed = ⟨pushed, .finished⟩ := by
  induction lines with
  | nil => intro pushed _; simp [batcherLoop]
  | cons line rest ih =>
    intro pushed h
    cases hp : processLine unmarshal line with
    | error err =>
      rw [parsedReviews_cons_error unmarshal line rest err hp] at h
      simp only [batcherLoop, hp]
      exact ih pushed h
    | ok review =>
      rw [parsedReviews_cons_ok unmarshal line rest review hp] at h
      simp at h

/-- With at most `size` reviews, and at least one, a single chunk is pushed. -/
theorem batcher_single_chunk (unmarshal : String → Except String Review) (size : Nat)
    (lines : List String) (hne : parsedReviews unmarshal lines ≠ [])
    (hlen : (parsedReviews unmarshal lines).length ≤ size) :
    (batcher unmarshal size noCancel lines).pushed = [parsedReviews unmarshal lines] := by
  have hsize : 1 ≤ size := by
    have := List.length_pos.2 hne
    omega
  obtain ⟨B, h1, h2, h3, h4⟩ :=
    batcherLoop_spec unmarshal size noCancel noCancel_spec lines [] []
      (by simpa using hsize)
  simp only [batcher, h1, List.nil_append]
  simp only [List.nil_append] at h2
  match B, h2, h3, h4 with
  | [], h2, _, _ => exact absurd h2.symm hne
  | [b], h2, _, _ => simpa using h2
  | b1 :: b2 :: rest, h2, h3, h4 =>
    exfalso
    have e1 : b1.length = size := h4 b1 (by simp [List.dropLast])
    have e2 : 1 ≤ b2.length := (h3 b2 (by simp)).1
    have e3 := congrArg List.length h2
    simp at e3
    omega

/-- C6. With `chunkSize ≥ 1`, in a run where `ctx` is never cancelled and every send
goes through, the batching goroutine ends normally and the chunks it pushed are, in
push order, the consecutive chunking of the reviews `processLine` decoded: flattened
they are that sequence, every chunk has between 1 and `chunkSize` reviews, and every
chunk but the last has exactly `chunkSize`. -/
theorem batcher_pushes_consecutive_chunks (unmarshal : String → Except String Review)
    (size : Nat) (env : Nat → PushEnv) (lines : List String) (hsize : 1 ≤ size)
    (henv : ∀ k, (env k).full k = false ∧ (env k).cancelled = false) :
    (batcher unmarshal size env lines).exit = .finished ∧
    (batcher unmarshal size env lines).pushed.flatten = parsedReviews unmarshal lines ∧
    (∀ b ∈ (batcher unmarshal size env lines).pushed, 1 ≤ b.length ∧ b.length ≤ size) ∧
    (∀ b ∈ (batcher unmarshal size env lines).pushed.dropLast, b.length = size) := by
  obtain ⟨B, h1, h2, h3, h4⟩ :=
    batcherLoop_spec unmarshal size env henv lines [] [] (by simpa using hsize)
  simp only [batcher, h1, List.nil_append]
  exact ⟨trivial, by simpa using h2, h3, h4⟩

/-- An instance of C6: five lines, one of them malformed, in chunks of two. -/
theorem batcher_pushes_consecutive_chunks_witness :
    (1 ≤ 2 ∧ ∀ k, (noCancel k).full k = false ∧ (noCancel k).cancelled = false) ∧
    (batcher sampleUnmarshal 2 noCancel
        [lineBad1, lineBad2, "oops", lineBad0, lineBad1, lineBad2]).pushed =
      [[⟨1, "bad"⟩, ⟨2, "bad"⟩], [⟨0, "bad"⟩, ⟨1, "bad"⟩], [⟨2, "bad"⟩]] ∧
    (batcher sampleUnmarshal 2 noCancel
        [lineBad1, lineBad2, "oops", lineBad0, lineBad1, lineBad2]).pushed.flatten =
      parsedReviews sampleUnmarshal [lineBad1, lineBad2, "oops", lineBad0, lineBad1, lineBad2] :=
  ⟨⟨by decide, noCancel_spec⟩, rfl,
    (batcher_pushes_consecutive_chunks sampleUnmarshal 2 noCancel
      [lineBad1, lineBad2, "oops", lineBad0, lineBad1, lineBad2] (by decide)
      noCancel_spec).2.1⟩


/-! ## The two sends of the batching goroutine -/

theorem batcherLoop_fill (unmarshal : String → Except String Review) (size : Nat)
    (env : Nat → PushEnv) (line : String) (review : Review)
    (h : processLine unmarshal line = .ok review) (rest : List String)
    (pushed : List (List Review)) :
    ∀ (j : Nat) (chunk : List Review), chunk.length + j < size →
      batcherLoop unmarshal size env (List.replicate j line ++ rest) chunk pushed =
        batcherLoop unmarshal size env rest (chunk ++ List.replicate j review) pushed := by
  intro j
  induction j with
  | zero => intro chunk _; simp
  | succ j ih =>
    intro chunk hlt
    have hne : ¬ (chunk ++ [review]).length = size := by simp; omega
    rw [List.replicate_succ, List.cons_append]
    simp only [batcherLoop, h, hne, if_false]
    rw [ih (chunk ++ [review]) (by simp; omega)]
    simp [List.replicate_succ]

theorem batcherLoop_full_chunk (unmarshal : String → Except String Review) (size : Nat)
    (env : Nat → PushEnv) (line : String) (review : Review)
    (h : processLine unmarshal line = .ok review) (hsize : 1 ≤ size) (rest : List String)
    (pushed : List (List Review))
    (hsent : selectPush (env pushed.length) pushed.length = .sent) :
    batcherLoop unmarshal size env (List.replicate size line ++ rest) [] pushed =
      batcherLoop unmarshal size env rest [] (pushed ++ [List.replicate size review]) := by
  obtain ⟨j, rfl⟩ : ∃ j, size = j + 1 := ⟨size - 1, by omega⟩
  rw [List.replicate_succ', List.append_assoc,
    batcherLoop_fill unmarshal (j + 1) env line review h _ pushed j [] (by simp)]
  have hlen : ([] ++ List.replicate j review ++ [review]).length = j + 1 := by simp
  simp only [List.singleton_append, batcherLoop, h, hlen, if_true, hsent]
  simp [List.replicate_succ']

theorem batcherLoop_full_chunks (unmarshal : String → Except String Review) (size : Nat)
    (env : Nat → PushEnv) (line : String) (review : Review)
    (h : processLine unmarshal line = .ok review) (hsize : 1 ≤ size) (rest : List String) :
    ∀ (m : Nat) (pushed : List (List Review)),
      (∀ k, pushed.length ≤ k → k < pushed.length + m → selectPush (env k) k = .sent) →
      batcherLoop unmarshal size env (List.replicate (m * size) line ++ rest) [] pushed =
        batcherLoop unmarshal size env rest []
          (pushed ++ List.replicate m (List.replicate size review)) := by
  intro m
  induction m with
  | zero => intro pushed _; simp
  | succ m ih =>
    intro pushed hsent
    have e : (m + 1) * size = size + m * size := by ring
    rw [e, List.replicate_add, List.append_assoc,
      batcherLoop_full_chunk unmarshal size env line review h hsize _ pushed
        (hsent _ (le_refl _) (by omega)),
      ih (pushed ++ [List.replicate size review])
        (fun k h1 h2 => hsent k (by simp at h1; omega) (by simp at h1 h2; omega))]
    simp [List.replicate_succ]

theorem stalledEnv_sent (k : Nat) (hk : k < queueCapacity) :
    selectPush (stalledEnv k) k = .sent := by
  have h : ¬ queueCapacity ≤ k := by omega
  simp [stalledEnv, selectPush, PushEnv.full, h]

theorem stalled_hundred_chunks (rest : List String) :
    batcherLoop sampleUnmarshal chunkSize stalledEnv
        (List.replicate (100 * chunkSize) lineBad1 ++ rest) [] [] =
      batcherLoop sampleUnmarshal chunkSize stalledEnv
        rest [] (List.replicate 100 (List.replicate chunkSize ⟨1, "bad"⟩)) := by
  rw [batcherLoop_full_chunks sampleUnmarshal chunkSize _ lineBad1 ⟨1, "bad"⟩ rfl (by decide)
    rest 100 [] (fun k _ hk => stalledEnv_sent k (by simpa [queueCapacity] using hk))]
  rfl

/-- C10, as the code has it. In every state of the batching goroutine: the send of a
full chunk is raced against `ctx.Done()`, so with the queue full and `ctx` cancelled
the goroutine abandons the chunk and returns; the flush of the trailing chunk after
the read loop is a plain send, so with the queue full the goroutine stays blocked on
it whether `ctx` is cancelled or not, and with room in the queue the chunk is pushed
and the goroutine ends normally. -/
theorem full_chunk_send_raced_flush_plain (unmarshal : String → Except String Review)
    (size : Nat) (env : Nat → PushEnv) :
    (∀ (line : String) (rest : List String) (chunk : List Review)
        (pushed : List (List Review)) (review : Review),
      processLine unmarshal line = .ok review →
      (chunk ++ [review]).length = size →
      (env pushed.length).full pushed.length = true →
      (env pushed.length).cancelled = true →
      batcherLoop unmarshal size env (line :: rest) chunk pushed = ⟨pushed, .cancelled⟩) ∧
    (∀ (chunk : List Review) (pushed : List (List Review)),
      0 < chunk.length →
      (env pushed.length).full pushed.length = true →
      batcherLoop unmarshal size env [] chunk pushed = ⟨pushed, .blocked⟩) ∧
    (∀ (chunk : List Review) (pushed : List (List Review)),
      0 < chunk.length →
      (env pushed.length).full pushed.length = false →
      batcherLoop unmarshal size env [] chunk pushed = ⟨pushed ++ [chunk], .finished⟩) := by
  refine ⟨?_, ?_, ?_⟩
  · intro line rest chunk pushed review hp hs hf hc
    simp only [batcherLoop, hp, hs, if_true, selectPush, hf, hc]
  · intro chunk pushed hlen hf
    simp [batcherLoop, hlen, plainPush, hf]
  · intro chunk pushed hlen hf
    simp [batcherLoop, hlen, plainPush, hf]

/-- An instance of C10 as the code has it, with the constants of `main`: 100 chunks
pushed and none received, `ctx` cancelled. With 99 reviews pending, the line that
completes the chunk makes the goroutine return on `ctx.Done()`; at the end of the
stream with one review pending, the goroutine blocks on the flush. -/
theorem full_chunk_send_raced_flush_plain_witness :
    batcherLoop sampleUnmarshal chunkSize stalledEnv
        [lineBad1] (List.replicate 99 ⟨1, "bad"⟩)
        (List.replicate 100 (List.replicate chunkSize ⟨1, "bad"⟩)) =
      ⟨List.replicate 100 (List.replicate chunkSize ⟨1, "bad"⟩), .cancelled⟩ ∧
    batcherLoop sampleUnmarshal chunkSize stalledEnv
        [] [⟨1, "bad"⟩] (List.replicate 100 (List.replicate chunkSize ⟨1, "bad"⟩)) =
      ⟨List.replicate 100 (List.replicate chunkSize ⟨1, "bad"⟩), .blocked⟩ := by
  have h := full_chunk_send_raced_flush_plain sampleUnmarshal chunkSize
    stalledEnv
  refine ⟨h.1 lineBad1 [] _ _ ⟨1, "bad"⟩ rfl ?_ ?_ ?_, h.2.1 _ _ (by simp) ?_⟩
  · simp [chunkSize]
  · simp [stalledEnv, PushEnv.full, queueCapacity]
  · simp [stalledEnv, queueCapacity]
  · simp [stalledEnv, PushEnv.full, queueCapacity]

/-- C10 fails as stated, with the constants of `main`: a stream of 10001 well-formed
lines, no chunk taken by a worker, `ctx` cancelled once the queue holds its 100
chunks. The goroutine pushes the 100 full chunks and reaches the flush of the
trailing chunk with the queue full and `ctx` cancelled; it does not abandon the chunk
and return, it stays blocked on the send of line 252. -/
theorem flush_blocks_on_full_queue_after_cancel :
    (stalledEnv 100).cancelled = true ∧
    (stalledEnv 100).full 100 = true ∧
    batcher sampleUnmarshal chunkSize stalledEnv
        (List.replicate (100 * chunkSize) lineBad1 ++ [lineBad1]) =
      ⟨List.replicate 100 (List.replicate chunkSize ⟨1, "bad"⟩), .blocked⟩ ∧
    (batcher sampleUnmarshal chunkSize stalledEnv
        (List.replicate (100 * chunkSize) lineBad1 ++ [lineBad1])).exit ≠ .cancelled := by
  have hrun : batcher sampleUnmarshal chunkSize stalledEnv
        (List.replicate (100 * chunkSize) lineBad1 ++ [lineBad1]) =
      ⟨List.replicate 100 (List.replicate chunkSize ⟨1, "bad"⟩), .blocked⟩ := by
    rw [batcher, stalled_hundred_chunks]
    have hp : processLine sampleUnmarshal lineBad1 = .ok ⟨1, "bad"⟩ := rfl
    simp [-List.reduceReplicate, batcherLoop, hp, chunkSize, plainPush, PushEnv.full,
      queueCapacity, stalledEnv]
  refine ⟨by simp [stalledEnv, queueCapacity], by simp [stalledEnv, PushEnv.full, queueCapacity],
    hrun, ?_⟩
  rw [hrun]
  decide

/-! ## A completed run in closed form -/

theorem eventsOf_eq (batches : List (List Review)) (assign : Nat → Nat) (n w : Nat) :
    eventsOf batches assign n w =
      (chunksOf batches assign n w).map Select.recv ++ Select.closed :: [] := rfl

theorem worker_eventsOf (score : String → Nat) (batches : List (List Review))
    (assign : Nat → Nat) (n w : Nat) (c : Counter) :
    worker score (eventsOf batches assign n w) c =
      ⟨⟨c.negative + (negativeReviews score (reviewsOf batches assign n w)).length,
        c.positive + (positiveReviews score (reviewsOf batches assign n w)).length,
        c.total + (reviewsOf batches assign n w).length⟩,
       ⟨((negativeReviews score (reviewsOf batches assign n w)).length : Int),
        ratingSum (negativeReviews score (reviewsOf batches assign n w))⟩,
       [resultOf score (reviewsOf batches assign n w)],
       some .drained⟩ := by
  rw [eventsOf_eq, worker_drained]
  rfl

theorem runWorkers_foldl (score : String → Nat) (batches : List (List Review))
    (assign : Nat → Nat) (n : Nat) (ws : List Nat) :
    ∀ acc : WorkersRun,
      ws.foldl
          (fun acc w =>
            let r := worker score (eventsOf batches assign n w) acc.counter
            (⟨r.counter, acc.results ++ r.sent⟩ : WorkersRun))
          acc =
        ⟨⟨acc.counter.negative +
            ((ws.map fun w => (negativeReviews score (reviewsOf batches assign n w)).length).sum : Nat),
          acc.counter.positive +
            ((ws.map fun w => (positiveReviews score (reviewsOf batches assign n w)).length).sum : Nat),
          acc.counter.total +
            ((ws.map fun w => (reviewsOf batches assign n w).length).sum : Nat)⟩,
         acc.results ++ ws.map fun w => resultOf score (reviewsOf batches assign n w)⟩ := by
  induction ws with
  | nil => intro acc; simp
  | cons w ws ih =>
    intro acc
    rw [List.foldl_cons, ih]
    simp only [worker_eventsOf, List.map_cons, List.sum_cons, List.append_assoc,
      List.singleton_append, Nat.cast_add, add_assoc]

theorem sum_map_ite_range (a x : Nat) :
    ∀ n : Nat, ((List.range n).map fun w => if a = w then x else 0).sum = if a < n then x else 0 := by
  intro n
  induction n with
  | zero => simp
  | succ n ih =>
    rw [List.range_succ, List.map_append, List.sum_append, ih]
    by_cases h1 : a < n
    · have h2 : a ≠ n := by omega
      have h3 : a < n + 1 := by omega
      simp [h1, h2, h3]
    · by_cases h2 : a = n
      · simp [h2]
      · have h3 : ¬ a < n + 1 := by omega
        simp [h1, h2, h3]

/-- Every review is ranged over by exactly one worker: a count taken worker by worker
adds up to the count over all the chunks. -/
theorem sum_countP_filter (g : Review → Bool) (assign : Nat → Nat) (n : Nat) (hn : 0 < n)
    (l : List (Nat × List Review)) :
    ((List.range n).map fun w =>
        (((l.filter fun p => assign p.1 % n = w).map Prod.snd).flatten.countP g)).sum =
      (l.map Prod.snd).flatten.countP g := by
  induction l with
  | nil => simp
  | cons p l ih =>
    have hstep : ∀ w,
        ((((p :: l).filter fun p => assign p.1 % n = w).map Prod.snd).flatten.countP g) =
          (if assign p.1 % n = w then p.2.countP g else 0) +
            (((l.filter fun p => assign p.1 % n = w).map Prod.snd).flatten.countP g) := by
      intro w
      by_cases h : assign p.1 % n = w <;> simp [List.filter_cons, h]
    simp only [hstep]
    rw [List.sum_map_add, ih, sum_map_ite_range, if_pos (Nat.mod_lt _ hn)]
    simp

theorem sum_countP_reviewsOf (g : Review → Bool) (batches : List (List Review))
    (assign : Nat → Nat) (n : Nat) (hn : 0 < n) :
    ((List.range n).map fun w => (reviewsOf batches assign n w).countP g).sum =
      batches.flatten.countP g := by
  have h := sum_countP_filter g assign n hn batches.enum
  rw [List.enum_map_snd] at h
  exact h

/-- The counter and the results of a completed run, from the chunks pushed. -/
theorem runWorkers_eq (score : String → Nat) (batches : List (List Review))
    (assign : Nat → Nat) (n : Nat) (hn : 0 < n) :
    runWorkers score batches assign n =
      ⟨⟨(negativeReviews score batches.flatten).length,
        (positiveReviews score batches.flatten).length,
        batches.flatten.length⟩,
       (List.range n).map fun w => resultOf score (reviewsOf batches assign n w)⟩ := by
  have h1 := sum_countP_reviewsOf (fun review => decide (score review.Text = 0)) batches assign n hn
  have h2 := sum_countP_reviewsOf (fun review => decide (¬ score review.Text = 0)) batches assign n hn
  have h3 := sum_countP_reviewsOf (fun _ => true) batches assign n hn
  simp only [List.countP_eq_length_filter] at h1 h2 h3
  simp only [List.filter_true] at h3
  unfold runWorkers
  rw [runWorkers_foldl]
  simp only [negativeReviews, positiveReviews, h1, h2, h3]
  simp

/-- The sequential run `runWorkers` stands for every interleaving: schedule the atomic
operations of the `n` workers in any order; once every worker has ranged over the
chunks it received, the counter is the one `runWorkers` computes, and the values the
workers send at lines 65-69 are the results `runWorkers` computes. -/
theorem runWorkers_eq_interleaved (score : String → Nat) (batches : List (List Review))
    (assign : Nat → Nat) (n : Nat) (hn : 0 < n) (schedule : List Nat)
    (h : (Pool.run score (Pool.init ((List.range n).map (reviewsOf batches assign n)))
      schedule).finished = true) :
    (Pool.run score (Pool.init ((List.range n).map (reviewsOf batches assign n)))
      schedule).counter = (runWorkers score batches assign n).counter ∧
    (Pool.run score (Pool.init ((List.range n).map (reviewsOf batches assign n)))
      schedule).threads.map (fun t => closingResult t.vars) =
      (runWorkers score batches assign n).results := by
  obtain ⟨h1, h2⟩ := Pool.run_finished score _ schedule h
  have c1 := sum_countP_reviewsOf (fun review => decide (score review.Text = 0)) batches assign n hn
  have c2 := sum_countP_reviewsOf (fun review => decide (¬ score review.Text = 0)) batches assign n hn
  have c3 := sum_countP_reviewsOf (fun _ => true) batches assign n hn
  have e : ∀ g : Review → Bool,
      (((List.range n).map (reviewsOf batches assign n)).flatten.filter g).length =
        ((List.range n).map fun w => (reviewsOf batches assign n w).countP g).sum := by
    intro g
    rw [← List.countP_eq_length_filter, List.countP_flatten, List.map_map]
    rfl
  refine ⟨?_, ?_⟩
  · rw [h1, runWorkers_eq score batches assign n hn]
    have e1 := (e (fun review => decide (score review.Text = 0))).trans c1
    have e2 := (e (fun review => decide (¬ score review.Text = 0))).trans c2
    have e3 := (e (fun _ => true)).trans c3
    simp only [List.countP_eq_length_filter, List.filter_true] at e1 e2 e3
    simp only [negativeReviews, positiveReviews, e1, e2, e3]
  · have hm : (Pool.run score (Pool.init ((List.range n).map (reviewsOf batches assign n)))
        schedule).threads.map (fun t => closingResult t.vars) =
        ((Pool.run score (Pool.init ((List.range n).map (reviewsOf batches assign n)))
          schedule).threads.map Thread.vars).map closingResult := by
      rw [List.map_map]
      rfl
    rw [hm, h2, runWorkers_eq score batches assign n hn, List.map_map, List.map_map]
    apply List.map_congr_left
    intro w _
    simp [closingResult, resultOf]

/-! ## Malformed lines and the total -/

theorem length_parsedReviews (unmarshal : String → Except String Review) (lines : List String) :
    (parsedReviews unmarshal lines).length =
      lines.countP fun line => (processLine unmarshal line).isOk := by
  induction lines with
  | nil => rfl
  | cons line rest ih =>
    cases hp : processLine unmarshal line with
    | error err =>
      rw [parsedReviews_cons_error unmarshal line rest err hp, ih]
      simp [List.countP_cons, hp, Except.isOk, Except.toBool]
    | ok review =>
      rw [parsedReviews_cons_ok unmarshal line rest review hp, List.length_cons, ih]
      simp [List.countP_cons, hp, Except.isOk, Except.toBool]

theorem parsedReviews_append (unmarshal : String → Except String Review) (xs ys : List String) :
    parsedReviews unmarshal (xs ++ ys) = parsedReviews unmarshal xs ++ parsedReviews unmarshal ys := by
  simp [parsedReviews, List.filterMap_append]

theorem pipeline_counter (unmarshal : String → Except String Review) (score : String → Nat)
    (size n : Nat) (assign : Nat → Nat) (lines : List String) (hsize : 1 ≤ size) (hn : 0 < n) :
    (pipeline unmarshal score size n assign lines).counter =
      ⟨(negativeReviews score (parsedReviews unmarshal lines)).length,
       (positiveReviews score (parsedReviews unmarshal lines)).length,
       (parsedReviews unmarshal lines).length⟩ := by
  have hb := (batcher_noCancel_flatten unmarshal size lines hsize)
  simp only [pipeline, runWorkers_eq score _ assign n hn, hb]

/-! ## The `int32` counter follows the exact counter -/

theorem wrapInt32_add_one (x : Int) : wrapInt32 (wrapInt32 x + 1) = wrapInt32 (x + 1) := by
  unfold wrapInt32
  omega

theorem wrapInt32_of_lt (x : Int) (h0 : 0 ≤ x) (h1 : x < 2147483648) : wrapInt32 x = x := by
  unfold wrapInt32
  omega

theorem Counter.wrap_zero : Counter.wrap ⟨0, 0, 0⟩ = ⟨0, 0, 0⟩ := by
  simp [Counter.wrap, wrapInt32]

theorem classifyReview32_wrap (score : String → Nat) (c : Counter) (v : WorkerVars)
    (review : Review) :
    classifyReview32 score c.wrap v review =
      ((classifyReview score c v review).1.wrap, (classifyReview score c v review).2) := by
  by_cases hs : score review.Text = 0 <;>
    simp [classifyReview32, classifyReview, hs, Counter.wrap, addInt32, wrapInt32_add_one]

theorem classifyChunk32_wrap (score : String → Nat) (chunk : List Review) :
    ∀ (c : Counter) (v : WorkerVars),
      classifyChunk32 score c.wrap v chunk =
        ((classifyChunk score c v chunk).1.wrap, (classifyChunk score c v chunk).2) := by
  induction chunk with
  | nil => intro c v; rfl
  | cons review chunk ih =>
    intro c v
    have e1 : classifyChunk32 score c.wrap v (review :: chunk) =
        classifyChunk32 score (classifyReview32 score c.wrap v review).1
          (classifyReview32 score c.wrap v review).2 chunk := rfl
    rw [e1, classifyReview32_wrap, ih, classifyChunk_cons]

theorem workerLoop32_wrap (score : String → Nat) (events : List Select) :
    ∀ (c : Counter) (v : WorkerVars),
      workerLoop32 score events c.wrap v =
        ⟨(workerLoop score events c v).counter.wrap, (workerLoop score events c v).vars,
         (workerLoop score events c v).sent, (workerLoop score events c v).exit⟩ := by
  induction events with
  | nil => intro c v; rfl
  | cons e rest ih =>
    intro c v
    cases e with
    | done => rfl
    | closed => rfl
    | recv chunk =>
      simp only [workerLoop32, workerLoop, classifyChunk32_wrap]
      exact ih _ _

theorem worker32_wrap (score : String → Nat) (events : List Select) (c : Counter) :
    worker32 score events c.wrap =
      ⟨(worker score events c).counter.wrap, (worker score events c).vars,
       (worker score events c).sent, (worker score events c).exit⟩ :=
  workerLoop32_wrap score events c ⟨0, 0⟩

theorem runWorkers32_foldl (score : String → Nat) (batches : List (List Review))
    (assign : Nat → Nat) (n : Nat) (ws : List Nat) :
    ∀ acc : WorkersRun,
      ws.foldl
          (fun acc w =>
            let r := worker32 score (eventsOf batches assign n w) acc.counter
            (⟨r.counter, acc.results ++ r.sent⟩ : WorkersRun))
          ⟨acc.counter.wrap, acc.results⟩ =
        ⟨(ws.foldl
            (fun acc w =>
              let r := worker score (eventsOf batches assign n w) acc.counter
              (⟨r.counter, acc.results ++ r.sent⟩ : WorkersRun))
            acc).counter.wrap,
         (ws.foldl
            (fun acc w =>
              let r := worker score (eventsOf batches assign n w) acc.counter
              (⟨r.counter, acc.results ++ r.sent⟩ : WorkersRun))
            acc).results⟩ := by
  induction ws with
  | nil => intro acc; rfl
  | cons w ws ih =>
    intro acc
    simp only [List.foldl_cons, worker32_wrap]
    exact ih ⟨(worker score (eventsOf batches assign n w) acc.counter).counter,
      acc.results ++ (worker score (eventsOf batches assign n w) acc.counter).sent⟩

/-- The run on `int32` counter fields holds the wrapped counts of the exact run and
sends the same results. -/
theorem runWorkers32_eq (score : String → Nat) (batches : List (List Review))
    (assign : Nat → Nat) (n : Nat) :
    runWorkers32 score batches assign n =
      ⟨(runWorkers score batches assign n).counter.wrap,
       (runWorkers score batches assign n).results⟩ := by
  have h := runWorkers32_foldl score batches assign n (List.range n) ⟨⟨0, 0, 0⟩, []⟩
  simp only [Counter.wrap_zero] at h
  exact h

theorem Thread.atomic32_wrap (score : String → Nat) (c : Counter) (t : Thread) :
    t.step32 score c.wrap = ((t.step score c).1.wrap, (t.step score c).2) := by
  obtain ⟨vars, inflight, todo⟩ := t
  rcases inflight with _ | ⟨neg, review⟩
  · cases todo <;> simp [Thread.step32, Thread.step, Counter.wrap, addInt32, wrapInt32_add_one]
  · cases neg <;> simp [Thread.step32, Thread.step, Counter.wrap, addInt32, wrapInt32_add_one]

theorem Pool.step32_wrap (score : String → Nat) (p : Pool) (i : Nat) :
    Pool.step32 score ⟨p.counter.wrap, p.threads⟩ i =
      ⟨(Pool.step score p i).counter.wrap, (Pool.step score p i).threads⟩ := by
  unfold Pool.step32 Pool.step
  cases ht : p.threads[i]? with
  | none => simp [ht]
  | some t => simp [ht, Thread.atomic32_wrap]

/-- Every interleaving on the `int32` counter holds the wrapped counts of the same
interleaving on the exact counter, with the workers in the same states. -/
theorem Pool.run32_wrap (score : String → Nat) (schedule : List Nat) :
    ∀ p : Pool,
      Pool.run32 score ⟨p.counter.wrap, p.threads⟩ schedule =
        ⟨(Pool.run score p schedule).counter.wrap, (Pool.run score p schedule).threads⟩ := by
  induction schedule with
  | nil => intro p; rfl
  | cons i rest ih =>
    intro p
    have e1 : Pool.run32 score ⟨p.counter.wrap, p.threads⟩ (i :: rest) =
        Pool.run32 score (Pool.step32 score ⟨p.counter.wrap, p.threads⟩ i) rest := rfl
    have e2 : Pool.run score p (i :: rest) = Pool.run score (Pool.step score p i) rest := rfl
    rw [e1, e2, Pool.step32_wrap, ih]

theorem Pool.run32_init (score : String → Nat) (todos : List (List Review))
    (schedule : List Nat) :
    Pool.run32 score (Pool.init todos) schedule =
      ⟨(Pool.run score (Pool.init todos) schedule).counter.wrap,
       (Pool.run score (Pool.init todos) schedule).threads⟩ := by
  have h := Pool.run32_wrap score schedule (Pool.init todos)
  have e : (⟨(Pool.init todos).counter.wrap, (Pool.init todos).threads⟩ : Pool) =
      Pool.init todos := by
    simp [Pool.init, Counter.wrap_zero]
  rw [e] at h
  exact h

theorem pipeline32_counter (unmarshal : String → Except String Review) (score : String → Nat)
    (size n : Nat) (assign : Nat → Nat) (lines : List String) (hsize : 1 ≤ size) (hn : 0 < n) :
    (pipeline32 unmarshal score size n assign lines).counter =
      ⟨wrapInt32 (negativeReviews score (parsedReviews unmarshal lines)).length,
       wrapInt32 (positiveReviews score (parsedReviews unmarshal lines)).length,
       wrapInt32 (parsedReviews unmarshal lines).length⟩ := by
  have h := pipeline_counter unmarshal score size n assign lines hsize hn
  unfold pipeline at h
  simp only [pipeline32, runWorkers32_eq, h, Counter.wrap]

/-- C7, as the code has it. In a run completed without cancellation (`chunkSize ≥ 1`,
at least one worker, the chunks handed to the workers in any way) the `int32` field
`counter.total` ends at the number of lines that `processLine` decodes, wrapped to 32
bits; so for a stream in which fewer than `2 ^ 31` lines decode it ends equal to that
number, and it does so for every interleaving of the workers' atomic adds. A line on
which `processLine` fails is skipped and the stream goes on: with the line put
anywhere in the stream the counter is the same as without it. -/
theorem total32_counts_decoded_lines (unmarshal : String → Except String Review)
    (score : String → Nat) (size n : Nat) (assign : Nat → Nat) (lines : List String)
    (hsize : 1 ≤ size) (hn : 0 < n) :
    (pipeline32 unmarshal score size n assign lines).counter.total =
      wrapInt32 (lines.countP (fun line => (processLine unmarshal line).isOk)) ∧
    (lines.countP (fun line => (processLine unmarshal line).isOk) < 2147483648 →
      (pipeline32 unmarshal score size n assign lines).counter.total =
        lines.countP (fun line => (processLine unmarshal line).isOk)) ∧
    (∀ schedule : List Nat,
      lines.countP (fun line => (processLine unmarshal line).isOk) < 2147483648 →
      (Pool.run32 score
        (Pool.init ((List.range n).map
          (reviewsOf (batcher unmarshal size noCancel lines).pushed assign n)))
        schedule).finished = true →
      (Pool.run32 score
        (Pool.init ((List.range n).map
          (reviewsOf (batcher unmarshal size noCancel lines).pushed assign n)))
        schedule).counter.total =
        lines.countP (fun line => (processLine unmarshal line).isOk)) ∧
    (∀ (before after : List String) (bad err : String) (assign1 : Nat → Nat),
      processLine unmarshal bad = .error err →
      (pipeline32 unmarshal score size n assign1 (before ++ bad :: after)).counter =
        (pipeline32 unmarshal score size n assign (before ++ after)).counter) := by
  have hwrap : (pipeline32 unmarshal score size n assign lines).counter.total =
      wrapInt32 (lines.countP (fun line => (processLine unmarshal line).isOk)) := by
    rw [pipeline32_counter unmarshal score size n assign lines hsize hn, ← length_parsedReviews]
  have hexact : (pipeline unmarshal score size n assign lines).counter.total =
      lines.countP (fun line => (processLine unmarshal line).isOk) := by
    rw [pipeline_counter unmarshal score size n assign lines hsize hn, ← length_parsedReviews]
  refine ⟨hwrap, ?_, ?_, ?_⟩
  · intro hb
    rw [hwrap]
    exact wrapInt32_of_lt _ (by omega) (by exact_mod_cast hb)
  · intro schedule hb hfin
    rw [Pool.run32_init] at hfin ⊢
    have hfin1 : (Pool.run score
        (Pool.init ((List.range n).map
          (reviewsOf (batcher unmarshal size noCancel lines).pushed assign n)))
        schedule).finished = true := hfin
    have h1 := (runWorkers_eq_interleaved score _ assign n hn schedule hfin1).1
    have h2 : (Pool.run score
        (Pool.init ((List.range n).map
          (reviewsOf (batcher unmarshal size noCancel lines).pushed assign n)))
        schedule).counter.total =
        lines.countP (fun line => (processLine unmarshal line).isOk) := by
      rw [h1]
      exact hexact
    simp only [Counter.wrap, h2]
    exact wrapInt32_of_lt _ (by omega) (by exact_mod_cast hb)
  · intro before after bad err assign1 hbad
    rw [pipeline32_counter unmarshal score size n assign1 _ hsize hn,
      pipeline32_counter unmarshal score size n assign _ hsize hn,
      parsedReviews_append, parsedReviews_append,
      parsedReviews_cons_error unmarshal bad after err hbad]

/-- An instance of C7 as the code has it: four good lines and two malformed ones,
chunks of two, three workers; the total is 4, also when the two workers that received
a chunk take turns at their atomic operations. -/
theorem total32_counts_decoded_lines_witness :
    (1 ≤ 2 ∧ 0 < 3) ∧
    [lineBad1, "oops", lineGood5, lineBad2, "", lineGood4].countP
      (fun line => (processLine sampleUnmarshal line).isOk) = 4 ∧
    (pipeline32 sampleUnmarshal sampleScore 2 3 (fun i => i)
        [lineBad1, "oops", lineGood5, lineBad2, "", lineGood4]).counter.total = 4 ∧
    (Pool.run32 sampleScore
        (Pool.init ((List.range 3).map
          (reviewsOf (batcher sampleUnmarshal 2 noCancel
            [lineBad1, "oops", lineGood5, lineBad2, "", lineGood4]).pushed (fun i => i) 3)))
        [0, 1, 1, 0, 2, 0, 1, 0, 1]).finished = true ∧
    (Pool.run32 sampleScore
        (Pool.init ((List.range 3).map
          (reviewsOf (batcher sampleUnmarshal 2 noCancel
            [lineBad1, "oops", lineGood5, lineBad2, "", lineGood4]).pushed (fun i => i) 3)))
        [0, 1, 1, 0, 2, 0, 1, 0, 1]).counter.total = 4 := by
  have h := total32_counts_decoded_lines sampleUnmarshal sampleScore 2 3 (fun i => i)
    [lineBad1, "oops", lineGood5, lineBad2, "", lineGood4] (by decide) (by decide)
  have hcount : [lineBad1, "oops", lineGood5, lineBad2, "", lineGood4].countP
      (fun line => (processLine sampleUnmarshal line).isOk) = 4 := rfl
  have hfin : (Pool.run32 sampleScore
        (Pool.init ((List.range 3).map
          (reviewsOf (batcher sampleUnmarshal 2 noCancel
            [lineBad1, "oops", lineGood5, lineBad2, "", lineGood4]).pushed (fun i => i) 3)))
        [0, 1, 1, 0, 2, 0, 1, 0, 1]).finished = true := rfl
  refine ⟨by decide, hcount, ?_, hfin, ?_⟩
  · rw [h.2.1 (by rw [hcount]; decide), hcount]
    rfl
  · rw [h.2.2.1 _ (by rw [hcount]; decide) hfin, hcount]
    rfl

/-- C7 fails as stated: on a stream of `2 ^ 31` well-formed lines, run to completion
with the constants of `main`, `processLine` succeeds on 2147483648 lines and the
`int32` field `counter.total` ends at -2147483648. -/
theorem total32_wraps_on_long_stream :
    (List.replicate 2147483648 lineBad1).countP
      (fun line => (processLine sampleUnmarshal line).isOk) = 2147483648 ∧
    (pipeline32 sampleUnmarshal sampleScore chunkSize numWorkers (fun i => i)
        (List.replicate 2147483648 lineBad1)).counter.total = -2147483648 ∧
    (pipeline32 sampleUnmarshal sampleScore chunkSize numWorkers (fun i => i)
        (List.replicate 2147483648 lineBad1)).counter.total ≠
      (((List.replicate 2147483648 lineBad1).countP
        (fun line => (processLine sampleUnmarshal line).isOk) : Nat) : Int) := by
  have hok : (processLine sampleUnmarshal lineBad1).isOk = true := rfl
  have hcount : (List.replicate 2147483648 lineBad1).countP
      (fun line => (processLine sampleUnmarshal line).isOk) = 2147483648 := by
    rw [List.countP_replicate]
    simp only [hok, if_true]
  have htotal : (pipeline32 sampleUnmarshal sampleScore chunkSize numWorkers (fun i => i)
        (List.replicate 2147483648 lineBad1)).counter.total = -2147483648 := by
    rw [pipeline32_counter sampleUnmarshal sampleScore chunkSize numWorkers (fun i => i) _
      (by decide) (by decide), length_parsedReviews, hcount]
    decide
  refine ⟨hcount, htotal, ?_⟩
  rw [htotal, hcount]
  decide

/-! ## The summary of a completed run -/

theorem resultOf_nil (score : String → Nat) : resultOf score [] = 0 := by
  simp [resultOf, negativeReviews]

theorem filter_map_ite_range (a : Nat) (m : ℚ) (hm : 0 < m) :
    ∀ n : Nat,
      ((List.range n).map fun w => if a = w then m else 0).filter (fun x => decide (0 < x)) =
        if a < n then [m] else [] := by
  intro n
  induction n with
  | zero => simp
  | succ n ih =>
    rw [List.range_succ, List.map_append, List.filter_append, ih]
    by_cases h1 : a < n
    · have h2 : a ≠ n := by omega
      have h3 : a < n + 1 := by omega
      simp [h1, h2, h3]
    · by_cases h2 : a = n
      · simp [h2, hm]
      · have h3 : ¬ a < n + 1 := by omega
        simp [h1, h2, h3]

theorem ratingSum_pos (reviews : List Review) (hne : reviews ≠ [])
    (hpos : ∀ r ∈ reviews, 0 < r.Rating) : 0 < ratingSum reviews := by
  unfold ratingSum
  apply List.sum_pos
  · intro x hx
    obtain ⟨r, hr, rfl⟩ := List.mem_map.1 hx
    exact hpos r hr
  · simpa using hne

/-- The results on `resultsCh` when one chunk was pushed: the worker that received it
sends its mean, the others send 0. -/
theorem results_single_chunk (score : String → Nat) (chunk : List Review)
    (assign : Nat → Nat) (n : Nat) :
    ((List.range n).map fun w => resultOf score (reviewsOf [chunk] assign n w)) =
      (List.range n).map fun w => if assign 0 % n = w then resultOf score chunk else 0 := by
  apply List.map_congr_left
  intro w _
  by_cases h : assign 0 % n = w <;>
    simp [reviewsOf, chunksOf, List.enum, List.enumFrom, List.filter_cons, h, resultOf_nil]

/-- C9. A stream whose decoded reviews fit one chunk, all with a positive rating and
at least one of them negative, run to completion with any number of workers, the
chunk received by any one of them and the results arriving in any order: the summary
reports the number of negative and of positive reviews, the mean of the ratings of
the negative reviews, and each percentage as count / total * 100. For the ratings
1, 2, 3, 4, 5 with the first two negative it reports 2, 3, 1.5, 40 and 60. -/
theorem single_chunk_summary :
    (∀ (unmarshal : String → Except String Review) (score : String → Nat) (size n : Nat)
        (assign : Nat → Nat) (lines : List String) (results : List ℚ),
      0 < n →
      (parsedReviews unmarshal lines).length ≤ size →
      (∀ r ∈ parsedReviews unmarshal lines, 0 < r.Rating) →
      negativeReviews score (parsedReviews unmarshal lines) ≠ [] →
      results.Perm (pipeline unmarshal score size n assign lines).results →
      summarize results (pipeline unmarshal score size n assign lines).counter =
        { average := some
            (ratingSum (negativeReviews score (parsedReviews unmarshal lines)) /
              ((negativeReviews score (parsedReviews unmarshal lines)).length : ℚ))
          negative := (negativeReviews score (parsedReviews unmarshal lines)).length
          positive := (positiveReviews score (parsedReviews unmarshal lines)).length
          negativePercentage := .real
            (((negativeReviews score (parsedReviews unmarshal lines)).length : ℚ) /
              ((parsedReviews unmarshal lines).length : ℚ) * 100)
          positivePercentage := .real
            (((positiveReviews score (parsedReviews unmarshal lines)).length : ℚ) /
              ((parsedReviews unmarshal lines).length : ℚ) * 100) }) ∧
    report sampleUnmarshal sampleScore chunkSize numWorkers (fun i => i)
        [lineBad1, lineBad2, lineGood3, lineGood4, lineGood5] =
      ⟨some (3 / 2), 2, 3, .real 40, .real 60⟩ := by
  have main : ∀ (unmarshal : String → Except String Review) (score : String → Nat) (size n : Nat)
        (assign : Nat → Nat) (lines : List String) (results : List ℚ),
      0 < n →
      (parsedReviews unmarshal lines).length ≤ size →
      (∀ r ∈ parsedReviews unmarshal lines, 0 < r.Rating) →
      negativeReviews score (parsedReviews unmarshal lines) ≠ [] →
      results.Perm (pipeline unmarshal score size n assign lines).results →
      summarize results (pipeline unmarshal score size n assign lines).counter =
        { average := some
            (ratingSum (negativeReviews score (parsedReviews unmarshal lines)) /
              ((negativeReviews score (parsedReviews unmarshal lines)).length : ℚ))
          negative := (negativeReviews score (parsedReviews unmarshal lines)).length
          positive := (positiveReviews score (parsedReviews unmarshal lines)).length
          negativePercentage := .real
            (((negativeReviews score (parsedReviews unmarshal lines)).length : ℚ) /
              ((parsedReviews unmarshal lines).length : ℚ) * 100)
          positivePercentage := .real
            (((positiveReviews score (parsedReviews unmarshal lines)).length : ℚ) /
              ((parsedReviews unmarshal lines).length : ℚ) * 100) } := by
    intro unmarshal score size n assign lines results hn hlen hpos hneg hperm
    have hne : parsedReviews unmarshal lines ≠ [] := by
      intro h
      apply hneg
      simp [negativeReviews, h]
    have hsize : 1 ≤ size := by
      have := List.length_pos.2 hne
      omega
    have hnegs : 0 < (negativeReviews score (parsedReviews unmarshal lines)).length :=
      List.length_pos.2 hneg
    have hsum : 0 < ratingSum (negativeReviews score (parsedReviews unmarshal lines)) := by
      apply ratingSum_pos _ hneg
      intro r hr
      exact hpos r (List.mem_filter.1 hr).1
    have hmean : 0 < resultOf score (parsedReviews unmarshal lines) := by
      simp only [resultOf, hnegs, if_true]
      exact div_pos hsum (by exact_mod_cast hnegs)
    have hres : (pipeline unmarshal score size n assign lines).results =
        (List.range n).map fun w =>
          if assign 0 % n = w then resultOf score (parsedReviews unmarshal lines) else 0 := by
      simp only [pipeline, runWorkers_eq score _ assign n hn,
        batcher_single_chunk unmarshal size lines hne hlen, results_single_chunk]
    have hred : reduce results = (resultOf score (parsedReviews unmarshal lines), 1) := by
      rw [reduce_perm hperm, hres, reduce_eq, filter_map_ite_range _ _ hmean,
        if_pos (Nat.mod_lt _ hn)]
      simp
    have htot : ((parsedReviews unmarshal lines).length : Int) ≠ 0 := by
      have := List.length_pos.2 hne
      omega
    rw [pipeline_counter unmarshal score size n assign lines hsize hn]
    simp only [summarize, hred, F64.div, htot, if_false, F64.mul100]
    simp [resultOf, hnegs]
  refine ⟨main, ?_⟩
  have h := main sampleUnmarshal sampleScore chunkSize numWorkers (fun i => i)
    [lineBad1, lineBad2, lineGood3, lineGood4, lineGood5] _ (by decide)
    (by simp [parsedReviews, processLine, sampleUnmarshal, lineBad0, lineBad1, lineBad2, lineGood3, lineGood4, lineGood5, chunkSize])
    (by simp [parsedReviews, processLine, sampleUnmarshal, lineBad0, lineBad1, lineBad2, lineGood3, lineGood4, lineGood5])
    (by simp [parsedReviews, processLine, sampleUnmarshal, lineBad0, lineBad1, lineBad2, lineGood3, lineGood4, lineGood5, negativeReviews, sampleScore])
    (List.Perm.refl _)
  rw [report, h]
  simp [parsedReviews, processLine, sampleUnmarshal, lineBad0, lineBad1, lineBad2, lineGood3, lineGood4, lineGood5, negativeReviews, positiveReviews,
    sampleScore, ratingSum]
  norm_num

/-- An instance of C9: the five reviews in chunks of five, four workers, the chunk
received by worker 3 and the results read in the reverse order. -/
theorem single_chunk_summary_witness :
    summarize
        (pipeline sampleUnmarshal sampleScore 5 4 (fun _ => 7)
          [lineBad1, lineBad2, lineGood3, lineGood4, lineGood5]).results.reverse
        (pipeline sampleUnmarshal sampleScore 5 4 (fun _ => 7)
          [lineBad1, lineBad2, lineGood3, lineGood4, lineGood5]).counter =
      ⟨some (3 / 2), 2, 3, .real 40, .real 60⟩ := by
  have h := single_chunk_summary.1 sampleUnmarshal sampleScore 5 4 (fun _ => 7)
    [lineBad1, lineBad2, lineGood3, lineGood4, lineGood5] _ (by decide)
    (by simp [parsedReviews, processLine, sampleUnmarshal, lineBad0, lineBad1, lineBad2, lineGood3, lineGood4, lineGood5])
    (by simp [parsedReviews, processLine, sampleUnmarshal, lineBad0, lineBad1, lineBad2, lineGood3, lineGood4, lineGood5])
    (by simp [parsedReviews, processLine, sampleUnmarshal, lineBad0, lineBad1, lineBad2, lineGood3, lineGood4, lineGood5, negativeReviews, sampleScore])
    (List.reverse_perm _)
  rw [h]
  simp [parsedReviews, processLine, sampleUnmarshal, lineBad0, lineBad1, lineBad2, lineGood3, lineGood4, lineGood5, negativeReviews, positiveReviews,
    sampleScore, ratingSum]
  norm_num

/-! ## The empty stream -/

theorem pipeline_no_reviews (unmarshal : String → Except String Review) (score : String → Nat)
    (size n : Nat) (assign : Nat → Nat) (lines : List String) (hn : 0 < n)
    (h : parsedReviews unmarshal lines = []) :
    pipeline unmarshal score size n assign lines = ⟨⟨0, 0, 0⟩, List.replicate n 0⟩ := by
  have hb : (batcher unmarshal size noCancel lines).pushed = [] := by
    simp [batcher, batcherLoop_no_reviews unmarshal size noCancel lines [] h]
  simp only [pipeline, runWorkers_eq score _ assign n hn, hb]
  simp [negativeReviews, positiveReviews, reviewsOf, chunksOf, resultOf_nil,
    List.eq_replicate_iff]

theorem reduce_replicate_zero (n : Nat) : reduce (List.replicate n 0) = (0, 0) := by
  rw [reduce_eq]
  simp [List.filter_replicate]

/-- C4 on the code. For the empty stream, and for any stream in which no line decodes,
`counter.total` ends at 0 and no `Average negative reviews` line is printed; the two
percentage lines are printed all the same, each computed as `0 / 0 * 100`, which is
NaN. -/
theorem empty_stream_percentages_nan (unmarshal : String → Except String Review)
    (score : String → Nat) (size n : Nat) (assign : Nat → Nat) (lines : List String)
    (hn : 0 < n) (h : parsedReviews unmarshal lines = []) :
    (pipeline unmarshal score size n assign lines).counter.total = 0 ∧
    report unmarshal score size n assign lines = ⟨none, 0, 0, .nan, .nan⟩ := by
  simp [report, pipeline_no_reviews unmarshal score size n assign lines hn h, summarize,
    reduce_replicate_zero, F64.div, F64.mul100]

/-- The run of `main` on the empty file, and on a file of two malformed lines. -/
theorem empty_stream_percentages_nan_witness :
    (0 < numWorkers ∧ parsedReviews sampleUnmarshal [] = [] ∧
      parsedReviews sampleUnmarshal ["oops", ""] = []) ∧
    report sampleUnmarshal sampleScore chunkSize numWorkers (fun i => i) [] =
      ⟨none, 0, 0, .nan, .nan⟩ ∧
    report sampleUnmarshal sampleScore chunkSize numWorkers (fun i => i) ["oops", ""] =
      ⟨none, 0, 0, .nan, .nan⟩ :=
  ⟨⟨by decide, rfl, rfl⟩,
   (empty_stream_percentages_nan sampleUnmarshal sampleScore chunkSize numWorkers (fun i => i) []
      (by decide) rfl).2,
   (empty_stream_percentages_nan sampleUnmarshal sampleScore chunkSize numWorkers (fun i => i)
      ["oops", ""] (by decide) rfl).2⟩

/-! ## The mean of the per-worker means -/

theorem sample_batches :
    (batcher sampleUnmarshal chunkSize noCancel
        (List.replicate 100 lineBad1 ++ [lineBad2])).pushed =
      [List.replicate 100 ⟨1, "bad"⟩, [⟨2, "bad"⟩]] := by
  rfl

theorem negativeReviews_replicate (score : String → Nat) (k : Nat) (r : Review)
    (h : score r.Text = 0) :
    negativeReviews score (List.replicate k r) = List.replicate k r := by
  unfold negativeReviews
  rw [List.filter_eq_self]
  intro a ha
  rw [List.eq_of_mem_replicate ha]
  simpa using h

theorem positiveReviews_replicate (score : String → Nat) (k : Nat) (r : Review)
    (h : score r.Text = 0) :
    positiveReviews score (List.replicate k r) = [] := by
  unfold positiveReviews
  rw [List.filter_eq_nil_iff]
  intro a ha
  rw [List.eq_of_mem_replicate ha]
  simpa using h

theorem ratingSum_replicate (k : Nat) (r : Review) :
    ratingSum (List.replicate k r) = (k : ℚ) * r.Rating := by
  simp [ratingSum, List.map_replicate, List.sum_replicate]

theorem resultOf_sample_first :
    resultOf sampleScore (List.replicate 100 ⟨1, "bad"⟩) = 1 := by
  unfold resultOf
  rw [negativeReviews_replicate sampleScore 100 ⟨1, "bad"⟩ rfl, ratingSum_replicate,
    List.length_replicate]
  norm_num

theorem resultOf_sample_second : resultOf sampleScore [⟨2, "bad"⟩] = 2 := by
  simp [resultOf, negativeReviews, sampleScore, ratingSum]

theorem resultOf_sample_both :
    resultOf sampleScore (List.replicate 100 ⟨1, "bad"⟩ ++ [⟨2, "bad"⟩]) = 102 / 101 := by
  have hn : negativeReviews sampleScore (List.replicate 100 ⟨1, "bad"⟩ ++ [⟨2, "bad"⟩]) =
      List.replicate 100 ⟨1, "bad"⟩ ++ [⟨2, "bad"⟩] := by
    unfold negativeReviews
    rw [List.filter_append, ← negativeReviews, negativeReviews_replicate sampleScore 100 ⟨1, "bad"⟩ rfl]
    rfl
  unfold resultOf
  rw [hn]
  have hs : ratingSum (List.replicate 100 ⟨1, "bad"⟩ ++ [⟨2, "bad"⟩]) = 102 := by
    unfold ratingSum
    rw [List.map_append, List.sum_append, ← ratingSum, ratingSum_replicate]
    norm_num
  rw [hs, List.length_append, List.length_replicate]
  norm_num

theorem sample_counter (assign : Nat → Nat) :
    (pipeline sampleUnmarshal sampleScore chunkSize numWorkers assign
        (List.replicate 100 lineBad1 ++ [lineBad2])).counter = ⟨101, 0, 101⟩ := by
  simp only [pipeline, runWorkers_eq sampleScore _ assign numWorkers (by decide), sample_batches]
  have hn : negativeReviews sampleScore [List.replicate 100 ⟨1, "bad"⟩, [⟨2, "bad"⟩]].flatten =
      List.replicate 100 ⟨1, "bad"⟩ ++ [⟨2, "bad"⟩] := by
    simp only [List.flatten, List.append_nil]
    unfold negativeReviews
    rw [List.filter_append, ← negativeReviews, negativeReviews_replicate sampleScore 100 ⟨1, "bad"⟩ rfl]
    rfl
  have hp : positiveReviews sampleScore [List.replicate 100 ⟨1, "bad"⟩, [⟨2, "bad"⟩]].flatten =
      [] := by
    simp only [List.flatten, List.append_nil]
    unfold positiveReviews
    rw [List.filter_append, ← positiveReviews, positiveReviews_replicate sampleScore 100 ⟨1, "bad"⟩ rfl]
    rfl
  rw [hn, hp]
  simp only [List.flatten, List.append_nil, List.length_append, List.length_replicate,
    List.length_cons, List.length_nil]
  rfl

theorem sample_results_spread :
    (pipeline sampleUnmarshal sampleScore chunkSize numWorkers (fun i => i)
        (List.replicate 100 lineBad1 ++ [lineBad2])).results =
      [1, 2, 0, 0, 0, 0, 0, 0, 0, 0] := by
  simp only [pipeline, runWorkers_eq sampleScore _ _ numWorkers (by decide), sample_batches]
  have hr : List.range numWorkers = [0, 1, 2, 3, 4, 5, 6, 7, 8, 9] := rfl
  rw [hr]
  simp only [List.map_cons, List.map_nil, reviewsOf, chunksOf, List.enum, List.enumFrom,
    numWorkers]
  simp [-List.reduceReplicate, List.filter_cons, resultOf_sample_first, resultOf_sample_second,
    resultOf_nil]

theorem sample_results_together :
    (pipeline sampleUnmarshal sampleScore chunkSize numWorkers (fun _ => 0)
        (List.replicate 100 lineBad1 ++ [lineBad2])).results =
      [102 / 101, 0, 0, 0, 0, 0, 0, 0, 0, 0] := by
  simp only [pipeline, runWorkers_eq sampleScore _ _ numWorkers (by decide), sample_batches]
  have hr : List.range numWorkers = [0, 1, 2, 3, 4, 5, 6, 7, 8, 9] := rfl
  rw [hr]
  simp only [List.map_cons, List.map_nil, reviewsOf, chunksOf, List.enum, List.enumFrom,
    numWorkers]
  simp [-List.reduceReplicate, List.filter_cons, resultOf_sample_both, resultOf_nil]

theorem sample_parsedReviews :
    parsedReviews sampleUnmarshal (List.replicate 100 lineBad1 ++ [lineBad2]) =
      List.replicate 100 ⟨1, "bad"⟩ ++ [⟨2, "bad"⟩] := by
  rw [← batcher_noCancel_flatten sampleUnmarshal chunkSize _ (by decide), sample_batches]
  simp only [List.flatten, List.append_nil]

theorem sample_report_spread :
    report sampleUnmarshal sampleScore chunkSize numWorkers (fun i => i)
        (List.replicate 100 lineBad1 ++ [lineBad2]) =
      ⟨some (3 / 2), 101, 0, .real 100, .real 0⟩ := by
  simp only [report, sample_counter, sample_results_spread]
  simp [summarize, reduce, F64.div, F64.mul100]
  norm_num

theorem sample_report_together :
    report sampleUnmarshal sampleScore chunkSize numWorkers (fun _ => 0)
        (List.replicate 100 lineBad1 ++ [lineBad2]) =
      ⟨some (102 / 101), 101, 0, .real 100, .real 0⟩ := by
  simp only [report, sample_counter, sample_results_together]
  simp [summarize, reduce, F64.div, F64.mul100]

/-- C2 on the code. A file of 101 lines, all decoded and all classified negative, 100
with rating 1 followed by one with rating 2, run with the constants of `main`: the
first chunk of 100 goes to one worker and the trailing chunk of 1 to another. The run
completes and prints 3/2 as `Average negative reviews`, the mean of the two workers'
means 1 and 2, while the sum of the ratings of the negative reviews divided by their
number is 102/101. -/
theorem average_is_mean_of_worker_means :
    report sampleUnmarshal sampleScore chunkSize numWorkers (fun i => i)
        (List.replicate 100 lineBad1 ++ [lineBad2]) =
      ⟨some (3 / 2), 101, 0, .real 100, .real 0⟩ ∧
    ratingSum (negativeReviews sampleScore
        (parsedReviews sampleUnmarshal (List.replicate 100 lineBad1 ++ [lineBad2]))) /
      ((negativeReviews sampleScore
        (parsedReviews sampleUnmarshal (List.replicate 100 lineBad1 ++ [lineBad2]))).length : ℚ) =
      102 / 101 := by
  refine ⟨sample_report_spread, ?_⟩
  have h := resultOf_sample_both
  unfold resultOf at h
  rw [sample_parsedReviews]
  rw [if_pos] at h
  · exact h
  · have hn : negativeReviews sampleScore (List.replicate 100 ⟨1, "bad"⟩ ++ [⟨2, "bad"⟩]) =
        List.replicate 100 ⟨1, "bad"⟩ ++ [⟨2, "bad"⟩] := by
      unfold negativeReviews
      rw [List.filter_append, ← negativeReviews,
        negativeReviews_replicate sampleScore 100 ⟨1, "bad"⟩ rfl]
      rfl
    rw [hn, List.length_append, List.length_replicate]
    decide

/-- C3 on the code. The counter, and with it the two counts and the two percentages
of the summary, is the same however the reviews are cut into chunks and the chunks
handed to the workers. The `Average negative reviews` line is not: the same 101
lines, cut into the same two chunks, give 3/2 when two workers receive one chunk each
and 102/101 when one worker receives both. -/
theorem summary_depends_on_assignment :
    (∀ (unmarshal : String → Except String Review) (score : String → Nat)
        (size1 size2 n1 n2 : Nat) (assign1 assign2 : Nat → Nat) (lines : List String),
      1 ≤ size1 → 1 ≤ size2 → 0 < n1 → 0 < n2 →
      (pipeline unmarshal score size1 n1 assign1 lines).counter =
        (pipeline unmarshal score size2 n2 assign2 lines).counter) ∧
    report sampleUnmarshal sampleScore chunkSize numWorkers (fun i => i)
        (List.replicate 100 lineBad1 ++ [lineBad2]) =
      ⟨some (3 / 2), 101, 0, .real 100, .real 0⟩ ∧
    report sampleUnmarshal sampleScore chunkSize numWorkers (fun _ => 0)
        (List.replicate 100 lineBad1 ++ [lineBad2]) =
      ⟨some (102 / 101), 101, 0, .real 100, .real 0⟩ ∧
    report sampleUnmarshal sampleScore chunkSize numWorkers (fun i => i)
        (List.replicate 100 lineBad1 ++ [lineBad2]) ≠
      report sampleUnmarshal sampleScore chunkSize numWorkers (fun _ => 0)
        (List.replicate 100 lineBad1 ++ [lineBad2]) := by
  refine ⟨?_, sample_report_spread, sample_report_together, ?_⟩
  · intro unmarshal score size1 size2 n1 n2 assign1 assign2 lines h1 h2 h3 h4
    rw [pipeline_counter unmarshal score size1 n1 assign1 lines h1 h3,
      pipeline_counter unmarshal score size2 n2 assign2 lines h2 h4]
  · rw [sample_report_spread, sample_report_together]
    intro h
    have h1 := congrArg Summary.average h
    simp only [Option.some.injEq] at h1
    norm_num at h1

/-! ## A worker whose negative reviews have mean 0 -/

theorem zero_batches :
    (batcher sampleUnmarshal chunkSize noCancel
        (List.replicate 100 lineBad0 ++ [lineBad2])).pushed =
      [List.replicate 100 ⟨0, "bad"⟩, [⟨2, "bad"⟩]] := by
  rfl

theorem resultOf_zero_rated : resultOf sampleScore (List.replicate 100 ⟨0, "bad"⟩) = 0 := by
  unfold resultOf
  rw [negativeReviews_replicate sampleScore 100 ⟨0, "bad"⟩ rfl, ratingSum_replicate,
    List.length_replicate]
  norm_num

theorem zero_counter :
    (pipeline sampleUnmarshal sampleScore chunkSize numWorkers (fun i => i)
        (List.replicate 100 lineBad0 ++ [lineBad2])).counter = ⟨101, 0, 101⟩ := by
  simp only [pipeline, runWorkers_eq sampleScore _ _ numWorkers (by decide), zero_batches]
  have hn : negativeReviews sampleScore [List.replicate 100 ⟨0, "bad"⟩, [⟨2, "bad"⟩]].flatten =
      List.replicate 100 ⟨0, "bad"⟩ ++ [⟨2, "bad"⟩] := by
    simp only [List.flatten, List.append_nil]
    unfold negativeReviews
    rw [List.filter_append, ← negativeReviews,
      negativeReviews_replicate sampleScore 100 ⟨0, "bad"⟩ rfl]
    rfl
  have hp : positiveReviews sampleScore [List.replicate 100 ⟨0, "bad"⟩, [⟨2, "bad"⟩]].flatten =
      [] := by
    simp only [List.flatten, List.append_nil]
    unfold positiveReviews
    rw [List.filter_append, ← positiveReviews,
      positiveReviews_replicate sampleScore 100 ⟨0, "bad"⟩ rfl]
    rfl
  rw [hn, hp]
  simp only [List.flatten, List.append_nil, List.length_append, List.length_replicate,
    List.length_cons, List.length_nil]
  rfl

theorem zero_results :
    (pipeline sampleUnmarshal sampleScore chunkSize numWorkers (fun i => i)
        (List.replicate 100 lineBad0 ++ [lineBad2])).results =
      [0, 2, 0, 0, 0, 0, 0, 0, 0, 0] := by
  simp only [pipeline, runWorkers_eq sampleScore _ _ numWorkers (by decide), zero_batches]
  have hr : List.range numWorkers = [0, 1, 2, 3, 4, 5, 6, 7, 8, 9] := rfl
  rw [hr]
  simp only [List.map_cons, List.map_nil, reviewsOf, chunksOf, List.enum, List.enumFrom,
    numWorkers]
  simp [-List.reduceReplicate, List.filter_cons, resultOf_zero_rated, resultOf_sample_second,
    resultOf_nil]

/-- C8 on the code, with the constants of `main`. A worker whose only review is
negative and has rating 0 has negative count 1 and sends 0, the value a worker without
negative reviews sends, and the reduction leaves it out of its sum and its count. A
file of the single line `lineBad0` is reported with one negative review and no
`Average negative reviews` line. A file of 100 lines `lineBad0` followed by one line
`lineBad2`, all negative, whose two chunks go to two workers, is reported with
average 2: the worker that saw 100 negative reviews is left out. -/
theorem zero_rated_negative_left_out :
    (worker sampleScore [Select.recv [⟨0, "bad"⟩], Select.closed] ⟨0, 0, 0⟩).vars.negatives = 1 ∧
    (worker sampleScore [Select.recv [⟨0, "bad"⟩], Select.closed] ⟨0, 0, 0⟩).sent = [0] ∧
    (worker sampleScore [Select.closed] ⟨0, 0, 0⟩).sent = [0] ∧
    reduce (worker sampleScore [Select.recv [⟨0, "bad"⟩], Select.closed] ⟨0, 0, 0⟩).sent = (0, 0) ∧
    report sampleUnmarshal sampleScore chunkSize numWorkers (fun i => i) [lineBad0] =
      ⟨none, 1, 0, .real 100, .real 0⟩ ∧
    report sampleUnmarshal sampleScore chunkSize numWorkers (fun i => i)
        (List.replicate 100 lineBad0 ++ [lineBad2]) =
      ⟨some 2, 101, 0, .real 100, .real 0⟩ := by
  refine ⟨?_, ?_, ?_, ?_, ?_, ?_⟩
  · simp [worker, workerLoop, classifyChunk, classifyReview, sampleScore]
  · simp [worker, workerLoop, classifyChunk, classifyReview, sampleScore, closingResult]
  · simp [worker, workerLoop, closingResult]
  · simp [worker, workerLoop, classifyChunk, classifyReview, sampleScore, closingResult, reduce]
  · have hb : (batcher sampleUnmarshal chunkSize noCancel [lineBad0]).pushed =
        [[⟨0, "bad"⟩]] := rfl
    have h0 : resultOf sampleScore [⟨0, "bad"⟩] = 0 := by
      simp [resultOf, negativeReviews, sampleScore, ratingSum]
    have hp : pipeline sampleUnmarshal sampleScore chunkSize numWorkers (fun i => i) [lineBad0] =
        ⟨⟨1, 0, 1⟩, List.replicate numWorkers 0⟩ := by
      unfold pipeline
      rw [hb, runWorkers_eq sampleScore _ _ numWorkers (by decide), results_single_chunk, h0]
      simp [negativeReviews, positiveReviews, sampleScore, List.eq_replicate_iff]
    simp [report, hp, summarize, reduce_replicate_zero, F64.div, F64.mul100]
  · simp only [report, zero_counter, zero_results]
    simp [summarize, reduce, F64.div, F64.mul100]

end SentimentPipeline
